import Mathlib

/-!
# BW6-761 pairing engine (std/algebra/emulated/sw_bw6761/pairing.go)

A shallow embedding of the pairing engine of the repository and a verification
of its specification.  The emulated base field (`emulated.Field[BW6761Fp]`) and
the degree-6 extension arithmetic (`fields_bw6761.Ext6`) are consumed by the
engine as capabilities; they are taken here as records of operations, so every
function below is parametric in them and runs on any concrete instance.
-/

namespace SwBw6761

/-! ## Data model -/

/-- Outcome of a Go function whose result type is `(*T, error)`: either it
returns a pair (a pointer that may be nil, an error that may be nil) or the
run stops in a run-time panic (nil dereference, index out of range). -/
inductive GoResult (α : Type) where
  | ret (val : Option α) (err : Option String)
  | panicked
  deriving DecidableEq, Repr

/-- Operations of the emulated base field used by pairing.go (`pr.curveF.*`). -/
structure CurveF (F : Type) where
  Add : F → F → F
  Sub : F → F → F
  Neg : F → F
  Mul : F → F → F
  MulMod : F → F → F
  MulConst : F → Int → F
  Div : F → F → F
  Inverse : F → F

/-- Operations of `fields_bw6761.Ext6` used by pairing.go, on target-group
elements `G` with base-field coordinates `F`. -/
structure Ext6 (F G : Type) where
  One : G
  Set : G → G
  Mul : G → G → G
  Square : G → G
  CyclotomicSquare : G → G
  Conjugate : G → G
  Inverse : G → G
  Frobenius : G → G
  MulBy014 : G → F → F → G
  Expt : G → G
  Expc1 : G → G
  Expc2 : G → G

/-- The `Pairing` struct: the embedded extension capability and the base-field
capability `curveF`. -/
structure Pairing (F G : Type) where
  Ext6 : Ext6 F G
  curveF : CurveF F

/-- Affine point of G1 (coordinates `X`, `Y`). -/
structure G1Affine (F : Type) where
  X : F
  Y : F
  deriving DecidableEq, Repr

/-- Affine point of G2 (coordinates `X`, `Y`); BW6 curves have both groups over
the same base field. -/
structure G2Affine (F : Type) where
  X : F
  Y : F
  deriving DecidableEq, Repr

/-- Sparse line evaluation `(R0, R1)`. -/
structure lineEvaluation (F : Type) where
  R0 : F
  R1 : F
  deriving DecidableEq, Repr

/-! ## Fixed data -/

/-- The seed x₀ of BW6-761. -/
def x0 : Nat := 9586122913090633729

/-- `loopCounter1`: x₀+1 in 2-NAF, least significant digit first (`[64]int8`). -/
def loopCounter1 : List Int := [
  0, 1, 0, 0, 0, 0, 0, 0, 0, 0, 0, 0, 0, 0, 0, 0, 0, 0, 0, 0, 0, 0, 0, 0, 0,
  0, 0, 0, 0, 0, 0, 0, 0, 0, 0, 0, 0, 0, 0, 0, 0, 0, 0, 0, 0, 0, -1, 0, 1, 0,
  0, 1, 0, 0, 0, 0, 1, 0, 1, 0, 0, 0, 0, 1]

/-- `loopCounter2`: x₀³-x₀²-x₀ in 2-NAF, least significant digit first
(`[190]int8`). -/
def loopCounter2 : List Int := [
  -1, 0, 0, 0, 0, 0, 0, 0, 0, 0, 0, 0, 0, 0, 0, 0, 0, 0, 0, 0, 0, 0, 0, 0, 0, 0,
  0, 0, 0, 0, 0, 0, 0, 0, 0, 0, 0, 0, 0, 0, 0, 0, 0, 0, 0, 0, 0, 0, 0, 0, 0, 0,
  0, 0, 0, 0, 0, 0, 0, 0, 0, 0, 0, 0, 0, 0, 0, 0, 0, 0, 0, 0, 0, 0, 0, 0, 0, 0,
  0, 0, 0, 0, 0, 0, 0, 0, 0, 0, 0, 0, 0, 0, 0, 1, 0, 0, 1, 0, 0, -1, 0, 1, 0, -1,
  0, 0, 0, 0, -1, 0, 1, 0, 0, 0, 1, 0, 0, 0, 1, 0, 0, 1, 0, 1, 0, 0, 0, 1, 0, 0,
  0, 0, 0, 0, 0, 0, 0, 0, -1, 0, -1, 0, 0, 0, 0, -1, 0, 0, 1, 0, 0, 0, -1, 0, 0,
  -1, 0, 1, 0, -1, 0, 0, 0, 1, 0, 0, 1, 0, -1, 0, 1, 0, 1, 0, 0, 0, 1, 0, -1, 0,
  -1, 0, 0, 0, 0, 0, 1, 0, 0, 1]

/-- The value a digit table encodes: the sum over its entries of
`tbl[i] * 2^i`. -/
def nafValue (tbl : List Int) : Int :=
  ((List.range tbl.length).map (fun i => tbl.getD i 0 * 2 ^ i)).sum

/-! ## Point and line step formulas -/

/-- Go `doubleAndAddStep`: 2·p1 + p2 and the two lines, without computing the
intermediate y-coordinate. -/
def Pairing.doubleAndAddStep {F G : Type} (pr : Pairing F G) (p1 p2 : G2Affine F) :
    G2Affine F × lineEvaluation F × lineEvaluation F :=
  -- compute λ1 = (y2-y1)/(x2-x1)
  let n := pr.curveF.Sub p1.Y p2.Y
  let d := pr.curveF.Sub p1.X p2.X
  let l1 := pr.curveF.Div n d
  -- compute x3 = λ1²-x1-x2
  let x3 := pr.curveF.Mul l1 l1
  let x3 := pr.curveF.Sub x3 p1.X
  let x3 := pr.curveF.Sub x3 p2.X
  -- compute line1
  let line1R0 := pr.curveF.Neg l1
  let line1R1 := pr.curveF.Mul l1 p1.X
  let line1R1 := pr.curveF.Sub line1R1 p1.Y
  -- compute λ2 = -λ1-2y1/(x3-x1)
  let n := pr.curveF.Add p1.Y p1.Y
  let d := pr.curveF.Sub x3 p1.X
  let l2 := pr.curveF.Div n d
  let l2 := pr.curveF.Add l2 l1
  let l2 := pr.curveF.Neg l2
  -- compute x4 = λ2²-x1-x3
  let x4 := pr.curveF.Mul l2 l2
  let x4 := pr.curveF.Sub x4 p1.X
  let x4 := pr.curveF.Sub x4 x3
  -- compute y4 = λ2(x1 - x4)-y1
  let y4 := pr.curveF.Sub p1.X x4
  let y4 := pr.curveF.Mul l2 y4
  let y4 := pr.curveF.Sub y4 p1.Y
  -- compute line2
  let line2R0 := pr.curveF.Neg l2
  let line2R1 := pr.curveF.Mul l2 p1.X
  let line2R1 := pr.curveF.Sub line2R1 p1.Y
  (⟨x4, y4⟩, ⟨line1R0, line1R1⟩, ⟨line2R0, line2R1⟩)

/-- Go `doubleStep`: 2·p1 and the tangent line. -/
def Pairing.doubleStep {F G : Type} (pr : Pairing F G) (p1 : G2Affine F) :
    G2Affine F × lineEvaluation F :=
  -- λ = 3x²/2y
  let n := pr.curveF.Mul p1.X p1.X
  let three : Int := 3
  let n := pr.curveF.MulConst n three
  let d := pr.curveF.Add p1.Y p1.Y
  let lam := pr.curveF.Div n d
  -- xr = λ²-2x
  let xr := pr.curveF.Mul lam lam
  let xr := pr.curveF.Sub xr p1.X
  let xr := pr.curveF.Sub xr p1.X
  -- yr = λ(x-xr)-y
  let yr := pr.curveF.Sub p1.X xr
  let yr := pr.curveF.Mul lam yr
  let yr := pr.curveF.Sub yr p1.Y
  let lineR0 := pr.curveF.Neg lam
  let lineR1 := pr.curveF.Mul lam p1.X
  let lineR1 := pr.curveF.Sub lineR1 p1.Y
  (⟨xr, yr⟩, ⟨lineR0, lineR1⟩)

/-- Go `addStep`: p1 + p2 and the line through them. -/
def Pairing.addStep {F G : Type} (pr : Pairing F G) (p1 p2 : G2Affine F) :
    G2Affine F × lineEvaluation F :=
  -- compute λ = (y2-y1)/(x2-x1)
  let p2ypy := pr.curveF.Sub p2.Y p1.Y
  let p2xpx := pr.curveF.Sub p2.X p1.X
  let lam := pr.curveF.Div p2ypy p2xpx
  -- xr = λ²-x1-x2
  let lamlam := pr.curveF.Mul lam lam
  let p2xpx := pr.curveF.Add p1.X p2.X
  let xr := pr.curveF.Sub lamlam p2xpx
  -- yr = λ(x1-xr) - y1
  let pxrx := pr.curveF.Sub p1.X xr
  let lampxrx := pr.curveF.Mul lam pxrx
  let yr := pr.curveF.Sub lampxrx p1.Y
  let lineR0 := pr.curveF.Neg lam
  let lineR1 := pr.curveF.Mul lam p1.X
  let lineR1 := pr.curveF.Sub lineR1 p1.Y
  (⟨xr, yr⟩, ⟨lineR0, lineR1⟩)

/-- Go `lineCompute`: the line through p1 and p2, without p1 + p2. -/
def Pairing.lineCompute {F G : Type} (pr : Pairing F G) (p1 p2 : G2Affine F) :
    lineEvaluation F :=
  -- compute λ = (y2-y1)/(x2-x1)
  let qypy := pr.curveF.Sub p2.Y p1.Y
  let qxpx := pr.curveF.Sub p2.X p1.X
  let lam := pr.curveF.Div qypy qxpx
  let lineR0 := pr.curveF.Neg lam
  let lineR1 := pr.curveF.Mul lam p1.X
  let lineR1 := pr.curveF.Sub lineR1 p1.Y
  ⟨lineR0, lineR1⟩

/-! ## Miller loop -/

/-- The `for` statement shared by `firstLoop` (lines 194-246, table
`loopCounter1`) and `secondLoop` (lines 266-318, table `loopCounter2`): the two
bodies are the same text up to the table name.  `loopFrom … (i+1) res Qacc` runs
the iterations with index `i, i-1, …, 0`.  A digit outside {-1, 0, 1} takes the
`default` branch and returns `(nil, error)`. -/
def Pairing.loopFrom {F G : Type} (pr : Pairing F G) (tbl : List Int)
    (Q QNeg : G2Affine F) (yInv xOverY : F) : Nat → G → G2Affine F → GoResult G
  | 0, res, _ => .ret (some res) none
  | i + 1, res, Qacc =>
    -- mutualize the square among n Miller loops
    let res := pr.Ext6.Square res
    match tbl[i]? with
    | none => .panicked
    | some digit =>
      if digit = 0 then
        -- Qacc ← 2Qacc and l1 the tangent ℓ passing 2Qacc
        let (Qacc, l1) := pr.doubleStep Qacc
        -- line evaluation at P
        let l1R0 := pr.curveF.Mul l1.R0 xOverY
        let l1R1 := pr.curveF.Mul l1.R1 yInv
        let res := pr.Ext6.MulBy014 res l1R1 l1R0
        pr.loopFrom tbl Q QNeg yInv xOverY i res Qacc
      else if digit = 1 then
        -- Qacc ← 2Qacc+Q
        let (Qacc, l1, l2) := pr.doubleAndAddStep Qacc Q
        -- line evaluation at P
        let l1R0 := pr.curveF.Mul l1.R0 xOverY
        let l1R1 := pr.curveF.Mul l1.R1 yInv
        let res := pr.Ext6.MulBy014 res l1R1 l1R0
        -- line evaluation at P
        let l2R0 := pr.curveF.Mul l2.R0 xOverY
        let l2R1 := pr.curveF.Mul l2.R1 yInv
        let res := pr.Ext6.MulBy014 res l2R1 l2R0
        pr.loopFrom tbl Q QNeg yInv xOverY i res Qacc
      else if digit = -1 then
        -- Qacc ← 2Qacc-Q
        let (Qacc, l1, l2) := pr.doubleAndAddStep Qacc QNeg
        -- line evaluation at P
        let l1R0 := pr.curveF.Mul l1.R0 xOverY
        let l1R1 := pr.curveF.Mul l1.R1 yInv
        let res := pr.Ext6.MulBy014 res l1R1 l1R0
        -- line evaluation at P
        let l2R0 := pr.curveF.Mul l2.R0 xOverY
        let l2R1 := pr.curveF.Mul l2.R1 yInv
        let res := pr.Ext6.MulBy014 res l2R1 l2R0
        pr.loopFrom tbl Q QNeg yInv xOverY i res Qacc
      else
        .ret none (some "invalid loopCounter")

/-- Go `firstLoop`, as a function of its digit table: indices 62..0. -/
def Pairing.firstLoopOn {F G : Type} (pr : Pairing F G) (tbl : List Int)
    (P : G1Affine F) (Q : G2Affine F) : GoResult G :=
  let res := pr.Ext6.One
  let Qacc := Q
  let QNeg : G2Affine F := ⟨Q.X, pr.curveF.Neg Q.Y⟩
  let yInv := pr.curveF.Inverse P.Y
  let xOverY := pr.curveF.MulMod P.X yInv
  pr.loopFrom tbl Q QNeg yInv xOverY 63 res Qacc

/-- Go `secondLoop`, as a function of its digit table: indices 188..0. -/
def Pairing.secondLoopOn {F G : Type} (pr : Pairing F G) (tbl : List Int)
    (P : G1Affine F) (Q : G2Affine F) : GoResult G :=
  let res := pr.Ext6.One
  let Qacc := Q
  let QNeg : G2Affine F := ⟨Q.X, pr.curveF.Neg Q.Y⟩
  let yInv := pr.curveF.Inverse P.Y
  let xOverY := pr.curveF.MulMod P.X yInv
  pr.loopFrom tbl Q QNeg yInv xOverY 189 res Qacc

/-- Go `MillerLoop`, as a function of the two digit tables.  Both error results
are dropped (`ml1, _ :=`, `ml2, _ :=`); the pointers go to `Frobenius` and `Mul`,
which read through them, so a nil pointer is a run-time panic.  The returned
error is always nil. -/
def Pairing.MillerLoopOn {F G : Type} (pr : Pairing F G) (tbl1 tbl2 : List Int)
    (P : G1Affine F) (Q : G2Affine F) : GoResult G :=
  -- f_{u+1,Q}(P)
  match pr.firstLoopOn tbl1 P Q with
  | .panicked => .panicked
  | .ret ml1 _ =>
    -- f_{u^3-u^2-u,Q}(P)
    match pr.secondLoopOn tbl2 P Q with
    | .panicked => .panicked
    | .ret ml2 _ =>
      match ml2, ml1 with
      | some ml2, some ml1 =>
        let ml := pr.Ext6.Frobenius ml2
        let ml := pr.Ext6.Mul ml ml1
        .ret (some ml) none
      | _, _ => .panicked

/-- Go `firstLoop`: the first sub-loop on the fixed table `loopCounter1`. -/
def Pairing.firstLoop {F G : Type} (pr : Pairing F G) (P : G1Affine F) (Q : G2Affine F) :
    GoResult G :=
  pr.firstLoopOn loopCounter1 P Q

/-- Go `secondLoop`: the second sub-loop on the fixed table `loopCounter2`. -/
def Pairing.secondLoop {F G : Type} (pr : Pairing F G) (P : G1Affine F) (Q : G2Affine F) :
    GoResult G :=
  pr.secondLoopOn loopCounter2 P Q

/-- Go `MillerLoop` on the fixed tables. -/
def Pairing.MillerLoop {F G : Type} (pr : Pairing F G) (P : G1Affine F) (Q : G2Affine F) :
    GoResult G :=
  pr.MillerLoopOn loopCounter1 loopCounter2 P Q

/-! ## Final exponentiation -/

/-- Go `FinalExponentiation(z, _z...)`. -/
def Pairing.FinalExponentiation {F G : Type} (pr : Pairing F G) (z : G) (_z : List G) : G :=
  let result := pr.Ext6.Set z
  let result := _z.foldl (fun result a => pr.Ext6.Mul result a) result
  -- Easy part
  -- (p^3-1)(p+1)
  let buf := pr.Ext6.Conjugate result
  let result := pr.Ext6.Inverse result
  let buf := pr.Ext6.Mul buf result
  let result := pr.Ext6.Frobenius buf
  let result := pr.Ext6.Mul result buf
  -- Hard part (up to permutation)
  let m1 := pr.Ext6.Expt result
  let _m1 := pr.Ext6.Conjugate m1
  let m2 := pr.Ext6.Expt m1
  let _m2 := pr.Ext6.Conjugate m2
  let m3 := pr.Ext6.Expt m2
  let f0 := pr.Ext6.Frobenius result
  let f0 := pr.Ext6.Mul f0 result
  let f0 := pr.Ext6.Mul f0 m2
  let m2 := pr.Ext6.CyclotomicSquare _m1
  let f0 := pr.Ext6.Mul f0 m2
  let f0_36 := pr.Ext6.CyclotomicSquare f0
  let f0_36 := pr.Ext6.CyclotomicSquare f0_36
  let f0_36 := pr.Ext6.CyclotomicSquare f0_36
  let f0_36 := pr.Ext6.Mul f0_36 f0
  let f0_36 := pr.Ext6.CyclotomicSquare f0_36
  let f0_36 := pr.Ext6.CyclotomicSquare f0_36
  let g0 := pr.Ext6.Mul result m1
  let g0 := pr.Ext6.Frobenius g0
  let g0 := pr.Ext6.Mul g0 m3
  let g0 := pr.Ext6.Mul g0 _m2
  let g0 := pr.Ext6.Mul g0 _m1
  let g1 := pr.Ext6.Expt g0
  let _g1 := pr.Ext6.Conjugate g1
  let g2 := pr.Ext6.Expt g1
  let g3 := pr.Ext6.Expt g2
  let _g3 := pr.Ext6.Conjugate g3
  let g4 := pr.Ext6.Expt g3
  let _g4 := pr.Ext6.Conjugate g4
  let g5 := pr.Ext6.Expt g4
  let _g5 := pr.Ext6.Conjugate g5
  let g6 := pr.Ext6.Expt g5
  let gA := pr.Ext6.Mul g3 _g5
  let gA := pr.Ext6.CyclotomicSquare gA
  let gA := pr.Ext6.Mul gA g6
  let gA := pr.Ext6.Mul gA g1
  let gA := pr.Ext6.Mul gA g0
  let g034 := pr.Ext6.Mul g0 g3
  let g034 := pr.Ext6.Mul g034 _g4
  let gB := pr.Ext6.CyclotomicSquare g034
  let gB := pr.Ext6.Mul gB g034
  let gB := pr.Ext6.Mul gB g5
  let gB := pr.Ext6.Mul gB _g1
  let _g1g2 := pr.Ext6.Mul _g1 g2
  let gC := pr.Ext6.Mul _g3 _g1g2
  let gC := pr.Ext6.CyclotomicSquare gC
  let gC := pr.Ext6.Mul gC _g1g2
  let gC := pr.Ext6.Mul gC g0
  let gC := pr.Ext6.CyclotomicSquare gC
  let gC := pr.Ext6.Mul gC g2
  let gC := pr.Ext6.Mul gC g0
  let gC := pr.Ext6.Mul gC g4
  -- ht, hy = 13, 9
  -- c1 = ht**2+3*hy**2 = 412
  let h1 := pr.Ext6.Expc1 gA
  -- c2 = ht+hy = 22
  let h2 := pr.Ext6.Expc2 gB
  let h2g2C := pr.Ext6.CyclotomicSquare gC
  let h2g2C := pr.Ext6.Mul h2g2C h2
  let h4 := pr.Ext6.CyclotomicSquare h2g2C
  let h4 := pr.Ext6.Mul h4 h2g2C
  let h4 := pr.Ext6.CyclotomicSquare h4
  let result := pr.Ext6.Mul h1 h4
  let result := pr.Ext6.Mul result f0_36
  result

/-! ## Pairing -/

/-- Go `Pair`, as a function of the two digit tables: the Miller loop, an early
return of its error, then the final exponentiation with no extra factor (whose
`Set` reads through the pointer, so a nil pointer is a run-time panic). -/
def Pairing.PairOn {F G : Type} (pr : Pairing F G) (tbl1 tbl2 : List Int)
    (P : G1Affine F) (Q : G2Affine F) : GoResult G :=
  match pr.MillerLoopOn tbl1 tbl2 P Q with
  | .panicked => .panicked
  | .ret f err =>
    match err with
    | some e => .ret none (some e)
    | none =>
      match f with
      | some f => .ret (some (pr.FinalExponentiation f [])) none
      | none => .panicked

/-- Go `Pair` on the fixed tables. -/
def Pairing.Pair {F G : Type} (pr : Pairing F G) (P : G1Affine F) (Q : G2Affine F) :
    GoResult G :=
  pr.PairOn loopCounter1 loopCounter2 P Q

/-! ## Specification-level definitions -/

/-- Every index below `n` of the table holds a digit of {-1, 0, 1}. -/
def validDigits (tbl : List Int) (n : Nat) : Prop :=
  ∀ i, i < n → tbl[i]? = some 0 ∨ tbl[i]? = some 1 ∨ tbl[i]? = some (-1)

instance (tbl : List Int) (n : Nat) : Decidable (validDigits tbl n) := by
  unfold validDigits; infer_instance

/-- The table has an entry at index `i` and it is outside {-1, 0, 1}. -/
def invalidDigit (tbl : List Int) (i : Nat) : Prop :=
  ∃ d, tbl[i]? = some d ∧ d ≠ 0 ∧ d ≠ 1 ∧ d ≠ -1

/-- A corrupted first table: `loopCounter1` with the entry at index 0 replaced
by 2. -/
def corruptedLoopCounter1 : List Int := loopCounter1.set 0 2

/-- The characteristic p of the BW6-761 base field (`emulated.BW6761Fp`). -/
def bw6_p : Nat := 6891450384315732539396789682275657542479668912536150109513790160209623422243491736087683183289411687640864567753786613451161759120554247759349511699125301598951605099378508850372543631423596795951899700429969112842764913119068299

/-- The prime subgroup order r of BW6-761. -/
def bw6_r : Nat := 258664426012969094010652733694893533536393512754914660539884262666720468348340822774968888139573360124440321458177

/-- The order p⁶ - 1 of the multiplicative group of F_{p⁶}. -/
def gtOrder : Nat := bw6_p ^ 6 - 1

/-- The exponent d = s·(p³-1)(p+1)(p²-p+1)/r with s = 12(x₀+1) (comment of
`FinalExponentiation`). -/
def finalExpD : Nat :=
  12 * (x0 + 1) * (bw6_p ^ 3 - 1) * (bw6_p + 1) * (bw6_p ^ 2 - bw6_p + 1) / bw6_r

/-- Three lists related position by position. -/
inductive Forall₃ {A B C : Type} (R : A → B → C → Prop) :
    List A → List B → List C → Prop where
  | nil : Forall₃ R [] [] []
  | cons {a b c as bs cs} :
    R a b c → Forall₃ R as bs cs → Forall₃ R (a :: as) (b :: bs) (c :: cs)

/-- The extension capability acts on a field `K` by power maps: `Set` copies,
`Mul` multiplies, `Frobenius` is the p-th power, `Conjugate` the p³-th power,
`Inverse` the field inverse, `CyclotomicSquare` squaring, `Expt` the x₀-th
power, `Expc1` the 412-th power and `Expc2` the 22-nd power. -/
structure IsPowerModel {F K : Type} [Field K] (pr : Pairing F K) : Prop where
  set_eq : ∀ a, pr.Ext6.Set a = a
  mul_eq : ∀ a b, pr.Ext6.Mul a b = a * b
  frobenius_eq : ∀ a, pr.Ext6.Frobenius a = a ^ bw6_p
  conjugate_eq : ∀ a, pr.Ext6.Conjugate a = a ^ (bw6_p ^ 3)
  inverse_eq : ∀ a, pr.Ext6.Inverse a = a⁻¹
  cyclotomicSquare_eq : ∀ a, pr.Ext6.CyclotomicSquare a = a * a
  expt_eq : ∀ a, pr.Ext6.Expt a = a ^ x0
  expc1_eq : ∀ a, pr.Ext6.Expc1 a = a ^ 412
  expc2_eq : ∀ a, pr.Ext6.Expc2 a = a ^ 22

/-- The extension capability is a commutative field `K` on which `Frobenius`,
`Conjugate`, `Inverse`, `CyclotomicSquare` (as squaring) and the three power
maps are multiplicative. -/
structure IsMultiplicativeModel {F K : Type} [Field K] (pr : Pairing F K) : Prop where
  set_eq : ∀ a, pr.Ext6.Set a = a
  mul_eq : ∀ a b, pr.Ext6.Mul a b = a * b
  inverse_eq : ∀ a, pr.Ext6.Inverse a = a⁻¹
  cyclotomicSquare_eq : ∀ a, pr.Ext6.CyclotomicSquare a = a * a
  frobenius_mul : ∀ a b, pr.Ext6.Frobenius (a * b) = pr.Ext6.Frobenius a * pr.Ext6.Frobenius b
  conjugate_mul : ∀ a b, pr.Ext6.Conjugate (a * b) = pr.Ext6.Conjugate a * pr.Ext6.Conjugate b
  expt_mul : ∀ a b, pr.Ext6.Expt (a * b) = pr.Ext6.Expt a * pr.Ext6.Expt b
  expc1_mul : ∀ a b, pr.Ext6.Expc1 (a * b) = pr.Ext6.Expc1 a * pr.Ext6.Expc1 b
  expc2_mul : ∀ a b, pr.Ext6.Expc2 (a * b) = pr.Ext6.Expc2 a * pr.Ext6.Expc2 b

/-! ## Instances of the capabilities -/

/-- A base-field capability with no content, for instances that exercise the
final exponentiation only. -/
def trivialCurveF : CurveF Unit where
  Add _ _ := ()
  Sub _ _ := ()
  Neg _ := ()
  Mul _ _ := ()
  MulMod _ _ := ()
  MulConst _ _ := ()
  Div _ _ := ()
  Inverse _ := ()

/-- The power-map extension capability on a field `K`.  The base field is not
modelled (`F = Unit`), so `MulBy014` has no line coefficients to multiply in and
returns its argument; `FinalExponentiation` does not use it. -/
def powExt6 (K : Type) [Field K] : Ext6 Unit K where
  One := 1
  Set a := a
  Mul a b := a * b
  Square a := a * a
  CyclotomicSquare a := a * a
  Conjugate a := a ^ (bw6_p ^ 3)
  Inverse a := a⁻¹
  Frobenius a := a ^ bw6_p
  MulBy014 res _ _ := res
  Expt a := a ^ x0
  Expc1 a := a ^ 412
  Expc2 a := a ^ 22

/-- The pairing record over the power-map capability. -/
def powPairing (K : Type) [Field K] : Pairing Unit K := ⟨powExt6 K, trivialCurveF⟩

/-- The multiplicative group of F_{p⁶}, cyclic of order p⁶ - 1, presented by
discrete logarithms to a fixed generator g: the number e stands for g^e, so
multiplication adds exponents modulo p⁶ - 1 and a k-th power map multiplies
them by k.  `MulBy014` is as in `powExt6`. -/
def dlogExt6 : Ext6 Unit Nat where
  One := 0
  Set a := a
  Mul a b := (a + b) % gtOrder
  Square a := (2 * a) % gtOrder
  CyclotomicSquare a := (2 * a) % gtOrder
  Conjugate a := (bw6_p ^ 3 * a) % gtOrder
  Inverse a := ((gtOrder - 1) * a) % gtOrder
  Frobenius a := (bw6_p * a) % gtOrder
  MulBy014 res _ _ := res
  Expt a := (x0 * a) % gtOrder
  Expc1 a := (412 * a) % gtOrder
  Expc2 a := (22 * a) % gtOrder

/-- The pairing record over the discrete-logarithm capability. -/
def dlogPairing : Pairing Unit Nat := ⟨dlogExt6, trivialCurveF⟩

/-! ## The base field as a field -/

/-- The base-field capability acts on a field `K` by the field operations:
`Add`, `Sub`, `Neg`, `Mul`, `MulMod`, `Div`, `Inverse` are the operations of
`K` and `MulConst` multiplies by the integer constant. -/
structure IsFieldModel {K G : Type} [Field K] (pr : Pairing K G) : Prop where
  add_eq : ∀ a b, pr.curveF.Add a b = a + b
  sub_eq : ∀ a b, pr.curveF.Sub a b = a - b
  neg_eq : ∀ a, pr.curveF.Neg a = -a
  mul_eq : ∀ a b, pr.curveF.Mul a b = a * b
  mulMod_eq : ∀ a b, pr.curveF.MulMod a b = a * b
  mulConst_eq : ∀ a (c : Int), pr.curveF.MulConst a c = a * (c : K)
  div_eq : ∀ a b, pr.curveF.Div a b = a / b
  inverse_eq : ∀ a, pr.curveF.Inverse a = a⁻¹

/-- The field operations of `K` as a base-field capability. -/
def fieldCurveF (K : Type) [Field K] : CurveF K where
  Add a b := a + b
  Sub a b := a - b
  Neg a := -a
  Mul a b := a * b
  MulMod a b := a * b
  MulConst a c := a * (c : K)
  Div a b := a / b
  Inverse a := a⁻¹

/-- An extension capability with no content, for instances that exercise the
point and line formulas only. -/
def trivialExt6 (F : Type) : Ext6 F Unit where
  One := ()
  Set _ := ()
  Mul _ _ := ()
  Square _ := ()
  CyclotomicSquare _ := ()
  Conjugate _ := ()
  Inverse _ := ()
  Frobenius _ := ()
  MulBy014 _ _ _ := ()
  Expt _ := ()
  Expc1 _ := ()
  Expc2 _ := ()

/-- The pairing record over the field operations of `K`. -/
def fieldPairing (K : Type) [Field K] : Pairing K Unit := ⟨trivialExt6 K, fieldCurveF K⟩

/-- The curve y² = x³ + b as a Weierstrass curve (a₁ = a₂ = a₃ = a₄ = 0,
a₆ = b). -/
def shortCurve {K : Type} [Field K] (b : K) : WeierstrassCurve.Affine K :=
  ⟨0, 0, 0, 0, b⟩

/-! ## Construction of the pairing record -/

/-- The error built by `fmt.Errorf("new base api: %w", err)`: its message and
the error it wraps. -/
structure WrappedError (E : Type) where
  msg : String
  wrapped : E

/-- Go `NewPairing`.  `newField` stands for `emulated.NewField[BW6761Fp]`,
`errorText` for the `Error()` text of the errors it returns, `newExt6` for
`fields_bw6761.NewExt6` and `zeroField` for the zero value of
`emulated.Field[BW6761Fp]`, which the struct literal, naming only `Ext6`,
leaves in the field `curveF`. -/
def NewPairing {A E F G : Type} (newField : A → Except E (CurveF F)) (errorText : E → String)
    (newExt6 : CurveF F → Ext6 F G) (zeroField : CurveF F) (api : A) :
    Option (Pairing F G) × Option (WrappedError E) :=
  match newField api with
  | .error err => (none, some ⟨"new base api: " ++ errorText err, err⟩)
  | .ok ba => (some { Ext6 := newExt6 ba, curveF := zeroField }, none)

/-! ## Trusted-setup utilities (backend/groth16/bw6-633/mpcsetup/utils.go) -/

/-- The loop `for i := 1; i < n; i++ { result[i].Mul(&result[i-1], &a) }` of Go
`powers`: `powersLoop a k i result` runs `k` iterations from index `i`.  An index
outside the slice is a run-time panic (`none`). -/
def powersLoop {K : Type} [Mul K] (a : K) : Nat → Nat → List K → Option (List K)
  | 0, _, result => some result
  | k + 1, i, result =>
    match result[i - 1]? with
    | none => none
    | some prev =>
      if i < result.length then powersLoop a k (i + 1) (result.set i (prev * a)) else none

/-- Go `powers(a, n)`: `make([]fr.Element, n)` (a panic for negative `n`),
`result[0] = 1` (a panic on the empty slice), then the loop.  `none` is a
run-time panic. -/
def powers {K : Type} [Mul K] [Zero K] [One K] (a : K) (n : Int) : Option (List K) :=
  if n < 0 then none
  else
    let result := List.replicate n.toNat (0 : K)
    if 0 < result.length then
      let result := result.set 0 1
      powersLoop a (n.toNat - 1) 1 result
    else none

/-! ## Range check (std/rangecheck/rangecheck_plain.go) -/

/-- Modelled from the spec: `bits.ToBinary(api, v, bits.WithNbDigits(nbBits))`
of std/math/bits, which is not under src/.  It introduces `nbBits` digit
variables, asserts each of them boolean and asserts that their weighted sum
`Σ digits[i]·2^i` equals `v` in the native field.  `ToBinary q v nbBits digits`
evaluates these constraints on an assignment `digits` of the digit variables,
values of the native field of modulus `q` being their representatives below
`q`. -/
def ToBinary (q v nbBits : Nat) (digits : List Nat) : Bool :=
  digits.length == nbBits && digits.all (fun d => d == 0 || d == 1)
    && Nat.ofDigits 2 digits % q == v % q

/-- Go `plainChecker.Check(v, nbBits)`: the constraints of
`bits.ToBinary(pl.api, v, bits.WithNbDigits(nbBits))`. -/
def plainChecker.Check (q v nbBits : Nat) (digits : List Nat) : Bool :=
  ToBinary q v nbBits digits

/-! ## The parts of the final exponentiation -/

/-- The easy part of Go `FinalExponentiation` (lines 74-78), as a function of
the value `result` holds when it starts. -/
def Pairing.easyPart {F G : Type} (pr : Pairing F G) (result : G) : G :=
  let buf := pr.Ext6.Conjugate result
  let result := pr.Ext6.Inverse result
  let buf := pr.Ext6.Mul buf result
  let result := pr.Ext6.Frobenius buf
  let result := pr.Ext6.Mul result buf
  result

/-- The intermediate `f0` of the hard part of Go `FinalExponentiation`
(lines 83-92, less the lines of `_m2` and `m3`, which `f0` does not use), as a
function of the output `result` of the easy part. -/
def Pairing.hardPartF0 {F G : Type} (pr : Pairing F G) (result : G) : G :=
  -- Hard part (up to permutation)
  let m1 := pr.Ext6.Expt result
  let _m1 := pr.Ext6.Conjugate m1
  let m2 := pr.Ext6.Expt m1
  let f0 := pr.Ext6.Frobenius result
  let f0 := pr.Ext6.Mul f0 result
  let f0 := pr.Ext6.Mul f0 m2
  let m2 := pr.Ext6.CyclotomicSquare _m1
  let f0 := pr.Ext6.Mul f0 m2
  f0

/-- The intermediate `f0_36` of the hard part of Go `FinalExponentiation`
(lines 93-98), as a function of `f0`. -/
def Pairing.hardPartF0_36 {F G : Type} (pr : Pairing F G) (f0 : G) : G :=
  let f0_36 := pr.Ext6.CyclotomicSquare f0
  let f0_36 := pr.Ext6.CyclotomicSquare f0_36
  let f0_36 := pr.Ext6.CyclotomicSquare f0_36
  let f0_36 := pr.Ext6.Mul f0_36 f0
  let f0_36 := pr.Ext6.CyclotomicSquare f0_36
  let f0_36 := pr.Ext6.CyclotomicSquare f0_36
  f0_36

/-- The hard part of Go `FinalExponentiation` (lines 83-146), as a function of
the output `result` of the easy part. -/
def Pairing.hardPart {F G : Type} (pr : Pairing F G) (result : G) : G :=
  -- Hard part (up to permutation)
  let m1 := pr.Ext6.Expt result
  let _m1 := pr.Ext6.Conjugate m1
  let m2 := pr.Ext6.Expt m1
  let _m2 := pr.Ext6.Conjugate m2
  let m3 := pr.Ext6.Expt m2
  let f0 := pr.Ext6.Frobenius result
  let f0 := pr.Ext6.Mul f0 result
  let f0 := pr.Ext6.Mul f0 m2
  let m2 := pr.Ext6.CyclotomicSquare _m1
  let f0 := pr.Ext6.Mul f0 m2
  let f0_36 := pr.Ext6.CyclotomicSquare f0
  let f0_36 := pr.Ext6.CyclotomicSquare f0_36
  let f0_36 := pr.Ext6.CyclotomicSquare f0_36
  let f0_36 := pr.Ext6.Mul f0_36 f0
  let f0_36 := pr.Ext6.CyclotomicSquare f0_36
  let f0_36 := pr.Ext6.CyclotomicSquare f0_36
  let g0 := pr.Ext6.Mul result m1
  let g0 := pr.Ext6.Frobenius g0
  let g0 := pr.Ext6.Mul g0 m3
  let g0 := pr.Ext6.Mul g0 _m2
  let g0 := pr.Ext6.Mul g0 _m1
  let g1 := pr.Ext6.Expt g0
  let _g1 := pr.Ext6.Conjugate g1
  let g2 := pr.Ext6.Expt g1
  let g3 := pr.Ext6.Expt g2
  let _g3 := pr.Ext6.Conjugate g3
  let g4 := pr.Ext6.Expt g3
  let _g4 := pr.Ext6.Conjugate g4
  let g5 := pr.Ext6.Expt g4
  let _g5 := pr.Ext6.Conjugate g5
  let g6 := pr.Ext6.Expt g5
  let gA := pr.Ext6.Mul g3 _g5
  let gA := pr.Ext6.CyclotomicSquare gA
  let gA := pr.Ext6.Mul gA g6
  let gA := pr.Ext6.Mul gA g1
  let gA := pr.Ext6.Mul gA g0
  let g034 := pr.Ext6.Mul g0 g3
  let g034 := pr.Ext6.Mul g034 _g4
  let gB := pr.Ext6.CyclotomicSquare g034
  let gB := pr.Ext6.Mul gB g034
  let gB := pr.Ext6.Mul gB g5
  let gB := pr.Ext6.Mul gB _g1
  let _g1g2 := pr.Ext6.Mul _g1 g2
  let gC := pr.Ext6.Mul _g3 _g1g2
  let gC := pr.Ext6.CyclotomicSquare gC
  let gC := pr.Ext6.Mul gC _g1g2
  let gC := pr.Ext6.Mul gC g0
  let gC := pr.Ext6.CyclotomicSquare gC
  let gC := pr.Ext6.Mul gC g2
  let gC := pr.Ext6.Mul gC g0
  let gC := pr.Ext6.Mul gC g4
  -- ht, hy = 13, 9
  -- c1 = ht**2+3*hy**2 = 412
  let h1 := pr.Ext6.Expc1 gA
  -- c2 = ht+hy = 22
  let h2 := pr.Ext6.Expc2 gB
  let h2g2C := pr.Ext6.CyclotomicSquare gC
  let h2g2C := pr.Ext6.Mul h2g2C h2
  let h4 := pr.Ext6.CyclotomicSquare h2g2C
  let h4 := pr.Ext6.Mul h4 h2g2C
  let h4 := pr.Ext6.CyclotomicSquare h4
  let result := pr.Ext6.Mul h1 h4
  let result := pr.Ext6.Mul result f0_36
  result

/-- Membership in the cyclotomic subgroup of F_{p⁶}: m^(p² - p + 1) = 1. -/
def inCyclotomicSubgroup {K : Type} [Monoid K] (m : K) : Prop :=
  m ^ (bw6_p ^ 2 - bw6_p + 1) = 1

instance {K : Type} [Monoid K] [DecidableEq K] (m : K) : Decidable (inCyclotomicSubgroup m) := by
  unfold inCyclotomicSubgroup; infer_instance

/-- The membership test a checking `CyclotomicSquare` runs on its argument. -/
def cyclotomicCheck {K : Type} [Monoid K] [DecidableEq K] (m : K) : Bool :=
  decide (inCyclotomicSubgroup m)

/-- The capabilities of `pr` with a `CyclotomicSquare` that checks its
precondition: values are `Option G`, `none` records that `CyclotomicSquare` was
handed an argument that fails `valid`, and every operation passes `none` on. -/
def Pairing.guarded {F G : Type} (pr : Pairing F G) (valid : G → Bool) :
    Pairing F (Option G) where
  curveF := pr.curveF
  Ext6 :=
    { One := some pr.Ext6.One
      Set := fun a => a.map pr.Ext6.Set
      Mul := fun a b => a.bind (fun x => b.map (fun y => pr.Ext6.Mul x y))
      Square := fun a => a.map pr.Ext6.Square
      CyclotomicSquare := fun a =>
        a.bind (fun x => if valid x then some (pr.Ext6.CyclotomicSquare x) else none)
      Conjugate := fun a => a.map pr.Ext6.Conjugate
      Inverse := fun a => a.map pr.Ext6.Inverse
      Frobenius := fun a => a.map pr.Ext6.Frobenius
      MulBy014 := fun a c0 c1 => a.map (fun x => pr.Ext6.MulBy014 x c0 c1)
      Expt := fun a => a.map pr.Ext6.Expt
      Expc1 := fun a => a.map pr.Ext6.Expc1
      Expc2 := fun a => a.map pr.Ext6.Expc2 }

/-! ## The sub-loops as the specification words them -/

/-- The digits a sub-loop reads, in the order it reads them: indices
n-1, n-2, …, 0 of the table. -/
def scannedDigits (tbl : List Int) (n : Nat) : List Int := (tbl.take n).reverse

/-- One iteration of a sub-loop in the specification's words, on the state
(res, Qacc): square res; for digit 0 double Qacc and multiply the line in with
`MulBy014(res, R1·yInv, R0·xOverY)`; for digit 1 take `doubleAndAddStep(Qacc, Q)`
and multiply in line1 then line2; for digit -1 the same with (Q.X, -Q.Y) in
place of Q; any other digit is the invalid state (`none`). -/
def specIteration {F G : Type} (pr : Pairing F G) (Q : G2Affine F) (yInv xOverY : F)
    (digit : Int) (state : G × G2Affine F) : Option (G × G2Affine F) :=
  let res := pr.Ext6.Square state.1
  let mulLine := fun (res : G) (l : lineEvaluation F) =>
    pr.Ext6.MulBy014 res (pr.curveF.Mul l.R1 yInv) (pr.curveF.Mul l.R0 xOverY)
  if digit = 0 then
    let step := pr.doubleStep state.2
    some (mulLine res step.2, step.1)
  else if digit = 1 then
    let step := pr.doubleAndAddStep state.2 Q
    some (mulLine (mulLine res step.2.1) step.2.2, step.1)
  else if digit = -1 then
    let step := pr.doubleAndAddStep state.2 ⟨Q.X, pr.curveF.Neg Q.Y⟩
    some (mulLine (mulLine res step.2.1) step.2.2, step.1)
  else none

/-- A sub-loop in the specification's words: yInv = 1/yP and xOverY = xP·yInv
are computed once, the state starts at (One, Q), and the iteration runs over the
digits from the most significant one down. -/
def specLoop {F G : Type} (pr : Pairing F G) (P : G1Affine F) (Q : G2Affine F)
    (digits : List Int) : Option (G × G2Affine F) :=
  let yInv := pr.curveF.Inverse P.Y
  let xOverY := pr.curveF.MulMod P.X yInv
  digits.foldl (fun state digit => state.bind (specIteration pr Q yInv xOverY digit))
    (some (pr.Ext6.One, Q))

/-- What a sub-loop returns for the final state of the specification's loop: the
accumulator and a nil error, or a nil pointer and the invalid-digit error. -/
def resultOfSpec {G A : Type} : Option (G × A) → GoResult G
  | some (res, _) => .ret (some res) none
  | none => .ret none (some "invalid loopCounter")

/-- The scalar a sub-loop tracks: Qacc starts at Q (scalar 1) and each digit d
maps n to 2n + d. -/
def trackedScalar (digits : List Int) : Int :=
  digits.foldl (fun n d => 2 * n + d) 1

/-- Non-adjacent form: no two consecutive entries of the table are both
non-zero. -/
def isNAF (tbl : List Int) : Prop :=
  ∀ i, i < tbl.length - 1 → tbl.getD i 0 = 0 ∨ tbl.getD (i + 1) 0 = 0

instance (tbl : List Int) : Decidable (isNAF tbl) := by
  unfold isNAF; infer_instance

/-! ## Bit reversal (backend/groth16/bw6-633/mpcsetup/utils.go) -/

/-- The k low bits of x in reversed order: bit j of x goes to bit k - 1 - j. -/
def reverseBits : Nat → Nat → Nat
  | 0, _ => 0
  | k + 1, x => (x % 2) * 2 ^ k + reverseBits k (x / 2)

/-- Go `bits.Reverse64` (package math/bits): the 64 bits of a `uint64` in
reversed order. -/
def Reverse64 (x : Nat) : Nat := reverseBits 64 (x % 2 ^ 64)

/-- The number of trailing zero bits among the `fuel` low bits of a non-zero
x. -/
def trailingZerosAux : Nat → Nat → Nat
  | 0, _ => 0
  | fuel + 1, x => if x % 2 = 1 then 0 else trailingZerosAux fuel (x / 2) + 1

/-- Go `bits.TrailingZeros64` (package math/bits): the number of trailing zero
bits of a `uint64`, 64 for 0. -/
def TrailingZeros64 (x : Nat) : Nat :=
  if x % 2 ^ 64 = 0 then 64 else trailingZerosAux 64 (x % 2 ^ 64)

/-- The loop `for i := uint64(0); i < n; i++` of Go `bitReverse`:
`bitReverseLoop nn k i a` runs `k` iterations from index `i`.  The shift
`bits.Reverse64(i) >> nn` of a `uint64` is the quotient by 2^nn (0 when
nn = 64).  The swap reads `a[i]` and `a[irev]` and then writes both; an index
outside the slice is a run-time panic (`none`). -/
def bitReverseLoop {T : Type} (nn : Nat) : Nat → Nat → List T → Option (List T)
  | 0, _, a => some a
  | k + 1, i, a =>
    let irev := Reverse64 i / 2 ^ nn
    if irev > i then
      match a[i]?, a[irev]? with
      | some x, some y => bitReverseLoop nn k (i + 1) ((a.set i y).set irev x)
      | _, _ => none
    else bitReverseLoop nn k (i + 1) a

/-- Go `bitReverse(a)`, returning the slice it leaves (`none` for a run-time
panic).  The length of a Go slice is below 2^63, so `uint64(len(a))` is the
length. -/
def bitReverse {T : Type} (a : List T) : Option (List T) :=
  let n := a.length
  let nn := 64 - TrailingZeros64 n
  bitReverseLoop nn n 0 a

/-! ## The sub-loops on the fixed tables -/

/-- A loop over valid digits returns a value and a nil error. -/
theorem loopFrom_of_validDigits {F G : Type} (pr : Pairing F G) (tbl : List Int)
    (Q QNeg : G2Affine F) (yInv xOverY : F) :
    ∀ (n : Nat) (res : G) (Qacc : G2Affine F), validDigits tbl n →
      ∃ v, pr.loopFrom tbl Q QNeg yInv xOverY n res Qacc = .ret (some v) none := by
  intro n
  induction n with
  | zero => intro res Qacc _; exact ⟨res, rfl⟩
  | succ k ih =>
    intro res Qacc hv
    have hk : validDigits tbl k := fun i hi => hv i (Nat.lt_succ_of_lt hi)
    rcases hv k (Nat.lt_succ_self k) with h | h | h
    · simp only [Pairing.loopFrom, h, if_true]
      exact ih _ _ hk
    · simp only [Pairing.loopFrom, h]
      exact ih _ _ hk
    · simp only [Pairing.loopFrom, h]
      exact ih _ _ hk

/-! ## Simulation of the final exponentiation -/

/-- The loop over the extra factors preserves a relation that `Mul` preserves. -/
theorem foldl_Mul_sim {F1 G1 F2 G2 F3 G3 : Type} (p1 : Pairing F1 G1) (p2 : Pairing F2 G2)
    (p3 : Pairing F3 G3) (R : G1 → G2 → G3 → Prop)
    (hMul : ∀ a b c x y z, R a b c → R x y z →
      R (p1.Ext6.Mul a x) (p2.Ext6.Mul b y) (p3.Ext6.Mul c z))
    (e1 : List G1) (e2 : List G2) (e3 : List G3) (he : Forall₃ R e1 e2 e3) :
    ∀ a b c, R a b c →
      R (e1.foldl (fun result a => p1.Ext6.Mul result a) a)
        (e2.foldl (fun result a => p2.Ext6.Mul result a) b)
        (e3.foldl (fun result a => p3.Ext6.Mul result a) c) := by
  induction he with
  | nil => intro a b c h; exact h
  | cons hxyz _ ih => intro a b c h; exact ih _ _ _ (hMul _ _ _ _ _ _ h hxyz)

/-- Simulation principle for `FinalExponentiation`: a relation between three
target-group types that every operation used by the function preserves is
preserved by the function.  The proof follows the source line by line. -/
theorem FinalExponentiation_sim {F1 G1 F2 G2 F3 G3 : Type} (p1 : Pairing F1 G1)
    (p2 : Pairing F2 G2) (p3 : Pairing F3 G3) (R : G1 → G2 → G3 → Prop)
    (hSet : ∀ a b c, R a b c → R (p1.Ext6.Set a) (p2.Ext6.Set b) (p3.Ext6.Set c))
    (hMul : ∀ a b c x y z, R a b c → R x y z →
      R (p1.Ext6.Mul a x) (p2.Ext6.Mul b y) (p3.Ext6.Mul c z))
    (hCyclotomicSquare : ∀ a b c, R a b c → R (p1.Ext6.CyclotomicSquare a)
      (p2.Ext6.CyclotomicSquare b) (p3.Ext6.CyclotomicSquare c))
    (hConjugate : ∀ a b c, R a b c →
      R (p1.Ext6.Conjugate a) (p2.Ext6.Conjugate b) (p3.Ext6.Conjugate c))
    (hInverse : ∀ a b c, R a b c →
      R (p1.Ext6.Inverse a) (p2.Ext6.Inverse b) (p3.Ext6.Inverse c))
    (hFrobenius : ∀ a b c, R a b c →
      R (p1.Ext6.Frobenius a) (p2.Ext6.Frobenius b) (p3.Ext6.Frobenius c))
    (hExpt : ∀ a b c, R a b c → R (p1.Ext6.Expt a) (p2.Ext6.Expt b) (p3.Ext6.Expt c))
    (hExpc1 : ∀ a b c, R a b c → R (p1.Ext6.Expc1 a) (p2.Ext6.Expc1 b) (p3.Ext6.Expc1 c))
    (hExpc2 : ∀ a b c, R a b c → R (p1.Ext6.Expc2 a) (p2.Ext6.Expc2 b) (p3.Ext6.Expc2 c))
    (z1 : G1) (z2 : G2) (z3 : G3) (hz : R z1 z2 z3) (e1 : List G1) (e2 : List G2)
    (e3 : List G3) (he : Forall₃ R e1 e2 e3) :
    R (p1.FinalExponentiation z1 e1) (p2.FinalExponentiation z2 e2)
      (p3.FinalExponentiation z3 e3) := by
  have hset := hSet _ _ _ hz
  have hfold := foldl_Mul_sim p1 p2 p3 R hMul e1 e2 e3 he _ _ _ hset
  have hbuf_2 := hConjugate _ _ _ hfold
  have hresult_3 := hInverse _ _ _ hfold
  have hbuf_4 := hMul _ _ _ _ _ _ hbuf_2 hresult_3
  have hresult_5 := hFrobenius _ _ _ hbuf_4
  have hresult_6 := hMul _ _ _ _ _ _ hresult_5 hbuf_4
  have hm1_7 := hExpt _ _ _ hresult_6
  have hm1c_8 := hConjugate _ _ _ hm1_7
  have hm2_9 := hExpt _ _ _ hm1_7
  have hm2c_10 := hConjugate _ _ _ hm2_9
  have hm3_11 := hExpt _ _ _ hm2_9
  have hf0_12 := hFrobenius _ _ _ hresult_6
  have hf0_13 := hMul _ _ _ _ _ _ hf0_12 hresult_6
  have hf0_14 := hMul _ _ _ _ _ _ hf0_13 hm2_9
  have hm2_15 := hCyclotomicSquare _ _ _ hm1c_8
  have hf0_16 := hMul _ _ _ _ _ _ hf0_14 hm2_15
  have hf0_36_17 := hCyclotomicSquare _ _ _ hf0_16
  have hf0_36_18 := hCyclotomicSquare _ _ _ hf0_36_17
  have hf0_36_19 := hCyclotomicSquare _ _ _ hf0_36_18
  have hf0_36_20 := hMul _ _ _ _ _ _ hf0_36_19 hf0_16
  have hf0_36_21 := hCyclotomicSquare _ _ _ hf0_36_20
  have hf0_36_22 := hCyclotomicSquare _ _ _ hf0_36_21
  have hg0_23 := hMul _ _ _ _ _ _ hresult_6 hm1_7
  have hg0_24 := hFrobenius _ _ _ hg0_23
  have hg0_25 := hMul _ _ _ _ _ _ hg0_24 hm3_11
  have hg0_26 := hMul _ _ _ _ _ _ hg0_25 hm2c_10
  have hg0_27 := hMul _ _ _ _ _ _ hg0_26 hm1c_8
  have hg1_28 := hExpt _ _ _ hg0_27
  have hg1c_29 := hConjugate _ _ _ hg1_28
  have hg2_30 := hExpt _ _ _ hg1_28
  have hg3_31 := hExpt _ _ _ hg2_30
  have hg3c_32 := hConjugate _ _ _ hg3_31
  have hg4_33 := hExpt _ _ _ hg3_31
  have hg4c_34 := hConjugate _ _ _ hg4_33
  have hg5_35 := hExpt _ _ _ hg4_33
  have hg5c_36 := hConjugate _ _ _ hg5_35
  have hg6_37 := hExpt _ _ _ hg5_35
  have hgA_38 := hMul _ _ _ _ _ _ hg3_31 hg5c_36
  have hgA_39 := hCyclotomicSquare _ _ _ hgA_38
  have hgA_40 := hMul _ _ _ _ _ _ hgA_39 hg6_37
  have hgA_41 := hMul _ _ _ _ _ _ hgA_40 hg1_28
  have hgA_42 := hMul _ _ _ _ _ _ hgA_41 hg0_27
  have hg034_43 := hMul _ _ _ _ _ _ hg0_27 hg3_31
  have hg034_44 := hMul _ _ _ _ _ _ hg034_43 hg4c_34
  have hgB_45 := hCyclotomicSquare _ _ _ hg034_44
  have hgB_46 := hMul _ _ _ _ _ _ hgB_45 hg034_44
  have hgB_47 := hMul _ _ _ _ _ _ hgB_46 hg5_35
  have hgB_48 := hMul _ _ _ _ _ _ hgB_47 hg1c_29
  have hg1g2c_49 := hMul _ _ _ _ _ _ hg1c_29 hg2_30
  have hgC_50 := hMul _ _ _ _ _ _ hg3c_32 hg1g2c_49
  have hgC_51 := hCyclotomicSquare _ _ _ hgC_50
  have hgC_52 := hMul _ _ _ _ _ _ hgC_51 hg1g2c_49
  have hgC_53 := hMul _ _ _ _ _ _ hgC_52 hg0_27
  have hgC_54 := hCyclotomicSquare _ _ _ hgC_53
  have hgC_55 := hMul _ _ _ _ _ _ hgC_54 hg2_30
  have hgC_56 := hMul _ _ _ _ _ _ hgC_55 hg0_27
  have hgC_57 := hMul _ _ _ _ _ _ hgC_56 hg4_33
  have hh1_58 := hExpc1 _ _ _ hgA_42
  have hh2_59 := hExpc2 _ _ _ hgB_48
  have hh2g2C_60 := hCyclotomicSquare _ _ _ hgC_57
  have hh2g2C_61 := hMul _ _ _ _ _ _ hh2g2C_60 hh2_59
  have hh4_62 := hCyclotomicSquare _ _ _ hh2g2C_61
  have hh4_63 := hMul _ _ _ _ _ _ hh4_62 hh2g2C_61
  have hh4_64 := hCyclotomicSquare _ _ _ hh4_63
  have hresult_65 := hMul _ _ _ _ _ _ hh1_58 hh4_64
  have hresult_66 := hMul _ _ _ _ _ _ hresult_65 hf0_36_22
  exact hresult_66

/-! ## Results and error paths of the sub-loops and of the Miller loop -/

/-- A loop whose scanned indices all exist and one of which holds a digit
outside {-1, 0, 1} returns a nil pointer and the invalid-digit error. -/
theorem loopFrom_of_invalidDigit {F G : Type} (pr : Pairing F G) (tbl : List Int)
    (Q QNeg : G2Affine F) (yInv xOverY : F) :
    ∀ (n : Nat) (res : G) (Qacc : G2Affine F), n ≤ tbl.length →
      (∃ i, i < n ∧ invalidDigit tbl i) →
      pr.loopFrom tbl Q QNeg yInv xOverY n res Qacc = .ret none (some "invalid loopCounter") := by
  intro n
  induction n with
  | zero =>
    intro res Qacc _ h
    obtain ⟨i, hi, _⟩ := h
    exact absurd hi (Nat.not_lt_zero i)
  | succ k ih =>
    intro res Qacc hlen h
    have hk : k < tbl.length := hlen
    have hget : tbl[k]? = some tbl[k] := List.getElem?_eq_getElem hk
    have hrec : ¬ invalidDigit tbl k → ∃ i, i < k ∧ invalidDigit tbl i := by
      intro hn
      obtain ⟨i, hi, hinv⟩ := h
      rcases Nat.lt_succ_iff_lt_or_eq.mp hi with hlt | heq
      · exact ⟨i, hlt, hinv⟩
      · exact absurd (heq ▸ hinv) hn
    by_cases h0 : tbl[k] = 0
    · have hv : ¬ invalidDigit tbl k := by
        rintro ⟨d, hd, hd0, -, -⟩
        rw [hget] at hd
        exact hd0 ((Option.some.inj hd).symm.trans h0)
      simp only [Pairing.loopFrom, hget, h0, if_true]
      exact ih _ _ (Nat.le_of_lt hk) (hrec hv)
    · by_cases h1 : tbl[k] = 1
      · have hv : ¬ invalidDigit tbl k := by
          rintro ⟨d, hd, -, hd1, -⟩
          rw [hget] at hd
          exact hd1 ((Option.some.inj hd).symm.trans h1)
        simp only [Pairing.loopFrom, hget, h1]
        exact ih _ _ (Nat.le_of_lt hk) (hrec hv)
      · by_cases h2 : tbl[k] = -1
        · have hv : ¬ invalidDigit tbl k := by
            rintro ⟨d, hd, -, -, hd2⟩
            rw [hget] at hd
            exact hd2 ((Option.some.inj hd).symm.trans h2)
          simp only [Pairing.loopFrom, hget, h2]
          exact ih _ _ (Nat.le_of_lt hk) (hrec hv)
        · simp only [Pairing.loopFrom, hget, h0, h1, h2, if_false]

set_option maxRecDepth 100000 in
/-- Digits 62..0 of `loopCounter1` are in {-1, 0, 1}. -/
theorem validDigits_loopCounter1 : validDigits loopCounter1 63 := by decide

set_option maxRecDepth 100000 in
/-- Digits 188..0 of `loopCounter2` are in {-1, 0, 1}. -/
theorem validDigits_loopCounter2 : validDigits loopCounter2 189 := by decide

/-- On the fixed table `firstLoop` returns a value and a nil error. -/
theorem firstLoop_ret {F G : Type} (pr : Pairing F G) (P : G1Affine F) (Q : G2Affine F) :
    ∃ v, pr.firstLoop P Q = .ret (some v) none := by
  unfold Pairing.firstLoop Pairing.firstLoopOn
  exact loopFrom_of_validDigits pr loopCounter1 _ _ _ _ 63 _ _ validDigits_loopCounter1

/-- On the fixed table `secondLoop` returns a value and a nil error. -/
theorem secondLoop_ret {F G : Type} (pr : Pairing F G) (P : G1Affine F) (Q : G2Affine F) :
    ∃ v, pr.secondLoop P Q = .ret (some v) none := by
  unfold Pairing.secondLoop Pairing.secondLoopOn
  exact loopFrom_of_validDigits pr loopCounter2 _ _ _ _ 189 _ _ validDigits_loopCounter2

/-- What `MillerLoopOn` returns when both sub-loops return values. -/
theorem MillerLoopOn_of_ret {F G : Type} (pr : Pairing F G) (tbl1 tbl2 : List Int)
    (P : G1Affine F) (Q : G2Affine F) (ml1 ml2 : G) (e1 e2 : Option String)
    (h1 : pr.firstLoopOn tbl1 P Q = .ret (some ml1) e1)
    (h2 : pr.secondLoopOn tbl2 P Q = .ret (some ml2) e2) :
    pr.MillerLoopOn tbl1 tbl2 P Q
      = .ret (some (pr.Ext6.Mul (pr.Ext6.Frobenius ml2) ml1)) none := by
  simp only [Pairing.MillerLoopOn, h1, h2]

/-- On the fixed tables `MillerLoop` returns `Mul(Frobenius(ml2), ml1)` and a nil
error, where `ml1`, `ml2` are the values of the two sub-loops. -/
theorem MillerLoop_ret {F G : Type} (pr : Pairing F G) (P : G1Affine F) (Q : G2Affine F) :
    ∃ ml1 ml2, pr.firstLoop P Q = .ret (some ml1) none ∧
      pr.secondLoop P Q = .ret (some ml2) none ∧
      pr.MillerLoop P Q = .ret (some (pr.Ext6.Mul (pr.Ext6.Frobenius ml2) ml1)) none := by
  obtain ⟨ml1, h1⟩ := firstLoop_ret pr P Q
  obtain ⟨ml2, h2⟩ := secondLoop_ret pr P Q
  exact ⟨ml1, ml2, h1, h2, MillerLoopOn_of_ret pr _ _ P Q ml1 ml2 none none h1 h2⟩

/-- On the fixed tables `Pair` returns the final exponentiation of the Miller
loop value and a nil error. -/
theorem Pair_ret {F G : Type} (pr : Pairing F G) (P : G1Affine F) (Q : G2Affine F) :
    ∃ f, pr.MillerLoop P Q = .ret (some f) none ∧
      pr.Pair P Q = .ret (some (pr.FinalExponentiation f [])) none := by
  obtain ⟨ml1, ml2, -, -, h⟩ := MillerLoop_ret pr P Q
  refine ⟨_, h, ?_⟩
  have h2 : pr.MillerLoopOn loopCounter1 loopCounter2 P Q
      = .ret (some (pr.Ext6.Mul (pr.Ext6.Frobenius ml2) ml1)) none := h
  simp only [Pairing.Pair, Pairing.PairOn, h2]

/-- A sub-loop error never comes out of `MillerLoopOn`: whatever the tables, it
does not return a non-nil error. -/
theorem MillerLoopOn_err_nil {F G : Type} (pr : Pairing F G) (tbl1 tbl2 : List Int)
    (P : G1Affine F) (Q : G2Affine F) (v : Option G) (e : Option String)
    (h : pr.MillerLoopOn tbl1 tbl2 P Q = .ret v e) : e = none := by
  unfold Pairing.MillerLoopOn at h
  split at h
  · cases h
  · split at h
    · cases h
    · split at h
      · injection h with _ he; exact he.symm
      · cases h

/-- When the first sub-loop returns the invalid-digit error, `MillerLoopOn`
stops in a panic. -/
theorem MillerLoopOn_of_first_invalid {F G : Type} (pr : Pairing F G) (tbl1 tbl2 : List Int)
    (P : G1Affine F) (Q : G2Affine F) (e : Option String)
    (h1 : pr.firstLoopOn tbl1 P Q = .ret none e) :
    pr.MillerLoopOn tbl1 tbl2 P Q = .panicked := by
  unfold Pairing.MillerLoopOn
  rw [h1]
  cases pr.secondLoopOn tbl2 P Q with
  | panicked => rfl
  | ret ml2 e2 => cases ml2 <;> rfl

/-! ## The exponent computed by the final exponentiation -/

/-- With `Set` a copy, the extra factors are multiplied into `z`, in list order,
before the rest of the function runs. -/
theorem FinalExponentiation_extras {F G : Type} (pr : Pairing F G)
    (hSet : ∀ a, pr.Ext6.Set a = a) (z : G) (extra : List G) :
    pr.FinalExponentiation z extra
      = pr.FinalExponentiation (extra.foldl (fun result a => pr.Ext6.Mul result a) z) [] := by
  unfold Pairing.FinalExponentiation
  rw [hSet, hSet]
  rfl

/-- A power of z is unchanged when its exponent is reduced modulo an exponent
that kills z. -/
theorem pow_mod_of_pow_eq_one {K : Type} [Field K] (z : K) (hord : z ^ gtOrder = 1) (n : Nat) :
    z ^ (n % gtOrder) = z ^ n :=
  (pow_eq_pow_mod n hord).symm

/-- In the power model, the final exponentiation of z^e is z to the exponent
computed by the discrete-logarithm model. -/
theorem FinalExponentiation_dlog {F K : Type} [Field K] (pr : Pairing F K)
    (hpr : IsPowerModel pr) (z : K) (hord : z ^ gtOrder = 1) (e : Nat) :
    pr.FinalExponentiation (z ^ e) [] = z ^ (dlogPairing.FinalExponentiation e []) := by
  have hm := pow_mod_of_pow_eq_one z hord
  have hpow : ∀ (k : Nat) (a : K) (b : Nat), a = z ^ b → a ^ k = z ^ ((k * b) % gtOrder) := by
    intro k a b h
    rw [hm, h, ← pow_mul, Nat.mul_comm]
  refine FinalExponentiation_sim pr dlogPairing dlogPairing (fun w e _ => w = z ^ e)
    ?_ ?_ ?_ ?_ ?_ ?_ ?_ ?_ ?_ (z ^ e) e e rfl [] [] [] Forall₃.nil
  · intro a b _ h
    rw [hpr.set_eq]; exact h
  · intro a b _ x y _ h1 h2
    show pr.Ext6.Mul a x = z ^ ((b + y) % gtOrder)
    rw [hpr.mul_eq, hm, pow_add, h1, h2]
  · intro a b _ h
    show pr.Ext6.CyclotomicSquare a = z ^ ((2 * b) % gtOrder)
    rw [hpr.cyclotomicSquare_eq, hm, two_mul, pow_add, h]
  · intro a b _ h
    rw [hpr.conjugate_eq]; exact hpow _ a b h
  · intro a b _ h
    show pr.Ext6.Inverse a = z ^ (((gtOrder - 1) * b) % gtOrder)
    rw [hpr.inverse_eq, hm, h]
    apply inv_eq_of_mul_eq_one_right
    rw [← pow_add]
    have hpos : 1 ≤ gtOrder := by decide
    have : b + (gtOrder - 1) * b = gtOrder * b := by
      have hs : b + (gtOrder - 1) * b = (gtOrder - 1 + 1) * b := by ring
      rw [hs, Nat.sub_add_cancel hpos]
    rw [this, pow_mul, hord, one_pow]
  · intro a b _ h
    rw [hpr.frobenius_eq]; exact hpow _ a b h
  · intro a b _ h
    rw [hpr.expt_eq]; exact hpow _ a b h
  · intro a b _ h
    rw [hpr.expc1_eq]; exact hpow _ a b h
  · intro a b _ h
    rw [hpr.expc2_eq]; exact hpow _ a b h

/-- The exponent the function computes on the generator of the
discrete-logarithm model is d modulo p⁶ - 1. -/
theorem dlog_FinalExponentiation_one :
    dlogPairing.FinalExponentiation 1 [] = finalExpD % gtOrder := by decide

/-- In the power model the final exponentiation is the d-th power on every
element whose order divides p⁶ - 1. -/
theorem FinalExponentiation_eq_pow {F K : Type} [Field K] (pr : Pairing F K)
    (hpr : IsPowerModel pr) (z : K) (hord : z ^ gtOrder = 1) :
    pr.FinalExponentiation z [] = z ^ finalExpD := by
  have h := FinalExponentiation_dlog pr hpr z hord 1
  rw [pow_one, dlog_FinalExponentiation_one, pow_mod_of_pow_eq_one z hord] at h
  exact h

/-- A power model is a multiplicative model. -/
theorem IsPowerModel.isMultiplicativeModel {F K : Type} [Field K] {pr : Pairing F K}
    (hpr : IsPowerModel pr) : IsMultiplicativeModel pr where
  set_eq := hpr.set_eq
  mul_eq := hpr.mul_eq
  inverse_eq := hpr.inverse_eq
  cyclotomicSquare_eq := hpr.cyclotomicSquare_eq
  frobenius_mul a b := by simp only [hpr.frobenius_eq, mul_pow]
  conjugate_mul a b := by simp only [hpr.conjugate_eq, mul_pow]
  expt_mul a b := by simp only [hpr.expt_eq, mul_pow]
  expc1_mul a b := by simp only [hpr.expc1_eq, mul_pow]
  expc2_mul a b := by simp only [hpr.expc2_eq, mul_pow]

/-- In a multiplicative model the final exponentiation is multiplicative. -/
theorem FinalExponentiation_mul {F K : Type} [Field K] (pr : Pairing F K)
    (hpr : IsMultiplicativeModel pr) (a b : K) :
    pr.FinalExponentiation (a * b) [] =
      pr.FinalExponentiation a [] * pr.FinalExponentiation b [] := by
  refine FinalExponentiation_sim pr pr pr (fun w u v => w = u * v)
    ?_ ?_ ?_ ?_ ?_ ?_ ?_ ?_ ?_ (a * b) a b rfl [] [] [] Forall₃.nil
  · intro w u v h
    simp only [hpr.set_eq]; exact h
  · intro w u v x y t h1 h2
    simp only [hpr.mul_eq, h1, h2]; ring
  · intro w u v h
    simp only [hpr.cyclotomicSquare_eq, h]; ring
  · intro w u v h
    rw [h, hpr.conjugate_mul]
  · intro w u v h
    simp only [hpr.inverse_eq, h, mul_inv]
  · intro w u v h
    rw [h, hpr.frobenius_mul]
  · intro w u v h
    rw [h, hpr.expt_mul]
  · intro w u v h
    rw [h, hpr.expc1_mul]
  · intro w u v h
    rw [h, hpr.expc2_mul]

/-- The power-map capability on a field is a power model. -/
theorem powPairing_isPowerModel (K : Type) [Field K] : IsPowerModel (powPairing K) where
  set_eq _ := rfl
  mul_eq _ _ := rfl
  frobenius_eq _ := rfl
  conjugate_eq _ := rfl
  inverse_eq _ := rfl
  cyclotomicSquare_eq _ := rfl
  expt_eq _ := rfl
  expc1_eq _ := rfl
  expc2_eq _ := rfl

/-- The order p⁶ - 1 is even, so -1 is killed by it. -/
theorem neg_one_pow_gtOrder : (-1 : ℚ) ^ (bw6_p ^ 6 - 1) = 1 := by
  have h : Even (bw6_p ^ 6 - 1) := by decide
  rw [h.neg_one_pow]

/-- In a field with p⁶ elements every non-zero element is killed by p⁶ - 1, so
the hypothesis `z ^ gtOrder = 1` below holds for every non-zero element of
F_{p⁶}. -/
theorem pow_gtOrder_eq_one_of_card {K : Type} [Field K] [Fintype K]
    (hcard : Fintype.card K = bw6_p ^ 6) (z : K) (hz : z ≠ 0) : z ^ gtOrder = 1 := by
  have h := FiniteField.pow_card_sub_one_eq_one z hz
  rw [hcard] at h
  exact h

/-- In the power model over a field with p⁶ elements, the final exponentiation
is the d-th power on every non-zero element. -/
theorem FinalExponentiation_eq_pow_of_card {F K : Type} [Field K] [Fintype K]
    (pr : Pairing F K) (hpr : IsPowerModel pr) (hcard : Fintype.card K = bw6_p ^ 6)
    (z : K) (hz : z ≠ 0) : pr.FinalExponentiation z [] = z ^ finalExpD :=
  FinalExponentiation_eq_pow pr hpr z (pow_gtOrder_eq_one_of_card hcard z hz)

/-- The final exponentiation of an element killed by p⁶ - 1 is killed by r:
d·r = 12(x₀+1)·(p⁶ - 1). -/
theorem FinalExponentiation_pow_r {F K : Type} [Field K] (pr : Pairing F K)
    (hpr : IsPowerModel pr) (z : K) (hord : z ^ gtOrder = 1) :
    (pr.FinalExponentiation z []) ^ bw6_r = 1 := by
  have hdr : finalExpD * bw6_r = gtOrder * (12 * (x0 + 1)) := by decide
  rw [FinalExponentiation_eq_pow pr hpr z hord, ← pow_mul, hdr, pow_mul, hord, one_pow]

/-- Applying the final exponentiation twice: the second application raises to
the d-th power again, and gives back its argument only at the identity, because
d - 1 is coprime to r. -/
theorem FinalExponentiation_twice {F K : Type} [Field K] (pr : Pairing F K)
    (hpr : IsPowerModel pr) (z : K) (hord : z ^ gtOrder = 1) :
    pr.FinalExponentiation (pr.FinalExponentiation z []) []
        = (pr.FinalExponentiation z []) ^ finalExpD ∧
      (pr.FinalExponentiation (pr.FinalExponentiation z []) [] = pr.FinalExponentiation z []
        ↔ pr.FinalExponentiation z [] = 1) := by
  have hw : (pr.FinalExponentiation z []) ^ gtOrder = 1 := by
    rw [FinalExponentiation_eq_pow pr hpr z hord, ← pow_mul, Nat.mul_comm, pow_mul, hord,
      one_pow]
  have hr := FinalExponentiation_pow_r pr hpr z hord
  have h2 := FinalExponentiation_eq_pow pr hpr (pr.FinalExponentiation z []) hw
  refine ⟨h2, ?_⟩
  rw [h2]
  generalize pr.FinalExponentiation z [] = w at hw hr
  constructor
  · intro h
    have hw0 : w ≠ 0 := by
      rintro rfl
      have hpos : gtOrder ≠ 0 := by decide
      rw [zero_pow hpos] at hw
      exact zero_ne_one hw
    have hd : finalExpD = (finalExpD - 1) + 1 := by decide
    have h1 : w ^ (finalExpD - 1) = 1 := by
      rw [hd, pow_succ] at h
      exact mul_right_cancel₀ hw0 (h.trans (one_mul w).symm)
    have hg := pow_gcd_eq_one w h1 hr
    have hcop : Nat.gcd (finalExpD - 1) bw6_r = 1 := by decide
    rw [hcop, pow_one] at hg
    exact hg
  · intro h
    rw [h, one_pow]

/-! ## The claims -/

/-- C1. For all points P and Q, `Pair(P, Q)` returns the final exponentiation,
with no extra factor, of the value `MillerLoop(P, Q)` returns, together with a
nil error. -/
theorem C1_pair_eq_finalExp_millerLoop {F G : Type} (pr : Pairing F G) (P : G1Affine F)
    (Q : G2Affine F) :
    ∃ f, pr.MillerLoop P Q = .ret (some f) none ∧
      pr.Pair P Q = .ret (some (pr.FinalExponentiation f [])) none :=
  Pair_ret pr P Q

/-- C2. For all points P and Q, `MillerLoop(P, Q)` returns
`Mul(Frobenius(ml2), ml1)` where `ml1` is the value of `firstLoop(P, Q)` and
`ml2` the value of `secondLoop(P, Q)`: the Frobenius map is applied to the second
sub-loop only and the first is multiplied in unchanged. -/
theorem C2_millerLoop_eq {F G : Type} (pr : Pairing F G) (P : G1Affine F) (Q : G2Affine F) :
    ∃ ml1 ml2, pr.firstLoop P Q = .ret (some ml1) none ∧
      pr.secondLoop P Q = .ret (some ml2) none ∧
      pr.MillerLoop P Q = .ret (some (pr.Ext6.Mul (pr.Ext6.Frobenius ml2) ml1)) none :=
  MillerLoop_ret pr P Q

/-- C3. In the power model (Frobenius the p-th power, Conjugate the p³-th power,
Inverse the field inverse, CyclotomicSquare squaring, Expt, Expc1, Expc2 the
x₀-th, 412-th and 22-nd powers), for every z with z^(p⁶-1) = 1, that is every
non-zero element of F_{p⁶}, `FinalExponentiation(z)` equals z^d with
d = s·(p³-1)(p+1)(p²-p+1)/r and s = 12(x₀+1). -/
theorem C3_finalExponentiation_eq_pow_d {F K : Type} [Field K] (pr : Pairing F K)
    (hpr : IsPowerModel pr) (z : K) (hord : z ^ (bw6_p ^ 6 - 1) = 1) :
    pr.FinalExponentiation z []
      = z ^ (12 * (x0 + 1) * (bw6_p ^ 3 - 1) * (bw6_p + 1) * (bw6_p ^ 2 - bw6_p + 1) / bw6_r) :=
  FinalExponentiation_eq_pow pr hpr z hord

/-- C3, at the power-map capability on ℚ and z = -1. -/
theorem C3_finalExponentiation_eq_pow_d_witness :
    IsPowerModel (powPairing ℚ) ∧ (-1 : ℚ) ^ (bw6_p ^ 6 - 1) = 1 ∧
      (powPairing ℚ).FinalExponentiation (-1) []
        = (-1 : ℚ) ^
          (12 * (x0 + 1) * (bw6_p ^ 3 - 1) * (bw6_p + 1) * (bw6_p ^ 2 - bw6_p + 1) / bw6_r) :=
  ⟨powPairing_isPowerModel ℚ, neg_one_pow_gtOrder,
    C3_finalExponentiation_eq_pow_d (powPairing ℚ) (powPairing_isPowerModel ℚ) (-1)
      (neg_one_pow_gtOrder)⟩

/-- C4. With `Set` a copy, for every z and every list of extra factors a1..an,
`FinalExponentiation(z, a1, ..., an)` equals `FinalExponentiation(z')` with no
extras, where z' = Mul(...Mul(Mul(z, a1), a2)..., an) is the left fold of `Mul`
over the list starting from z; with the empty list z' is z. -/
theorem C4_finalExponentiation_extras {F G : Type} (pr : Pairing F G)
    (hSet : ∀ a, pr.Ext6.Set a = a) (z : G) (extra : List G) :
    pr.FinalExponentiation z extra
        = pr.FinalExponentiation (extra.foldl (fun acc a => pr.Ext6.Mul acc a) z) [] ∧
      ([] : List G).foldl (fun acc a => pr.Ext6.Mul acc a) z = z :=
  ⟨FinalExponentiation_extras pr hSet z extra, rfl⟩

/-- C4, at the power-map capability on ℚ, z = 2 and the extras 3, 5. -/
theorem C4_finalExponentiation_extras_witness :
    (∀ a, (powPairing ℚ).Ext6.Set a = a) ∧
      ((powPairing ℚ).FinalExponentiation 2 [3, 5]
        = (powPairing ℚ).FinalExponentiation
            ([3, 5].foldl (fun acc a => (powPairing ℚ).Ext6.Mul acc a) 2) [] ∧
      ([] : List ℚ).foldl (fun acc a => (powPairing ℚ).Ext6.Mul acc a) 2 = 2) :=
  ⟨fun _ => rfl, C4_finalExponentiation_extras (powPairing ℚ) (fun _ => rfl) 2 [3, 5]⟩

/-- C5. Multi-pairing equivalence: when the extension capability is a
commutative field on which Frobenius, Conjugate, Inverse, CyclotomicSquare (as
squaring) and the three power maps are multiplicative, for all a and b
`Mul(FinalExponentiation(a), FinalExponentiation(b))` equals
`FinalExponentiation(a, b)`. -/
theorem C5_multi_pairing_equivalence {F K : Type} [Field K] (pr : Pairing F K)
    (hpr : IsMultiplicativeModel pr) (a b : K) :
    pr.Ext6.Mul (pr.FinalExponentiation a []) (pr.FinalExponentiation b [])
      = pr.FinalExponentiation a [b] := by
  rw [FinalExponentiation_extras pr hpr.set_eq a [b]]
  show _ = pr.FinalExponentiation (pr.Ext6.Mul a b) []
  rw [hpr.mul_eq, hpr.mul_eq, FinalExponentiation_mul pr hpr]

/-- C5, at the power-map capability on ℚ with a = 2 and b = 3. -/
theorem C5_multi_pairing_equivalence_witness :
    IsMultiplicativeModel (powPairing ℚ) ∧
      (powPairing ℚ).Ext6.Mul ((powPairing ℚ).FinalExponentiation 2 [])
          ((powPairing ℚ).FinalExponentiation 3 [])
        = (powPairing ℚ).FinalExponentiation 2 [3] :=
  ⟨(powPairing_isPowerModel ℚ).isMultiplicativeModel,
    C5_multi_pairing_equivalence (powPairing ℚ)
      (powPairing_isPowerModel ℚ).isMultiplicativeModel 2 3⟩

/-- C7, as stated, fails: in the discrete-logarithm presentation of the
multiplicative group of F_{p⁶}, applying `FinalExponentiation` to
`FinalExponentiation(g)` for the generator g (exponent 1) does not reproduce
`FinalExponentiation(g)`. -/
theorem C7_idempotence_counterexample :
    dlogPairing.FinalExponentiation (dlogPairing.FinalExponentiation 1 []) []
      ≠ dlogPairing.FinalExponentiation 1 [] := by decide

/-- C7, amended. In the power model, for every z with z^(p⁶-1) = 1, applying
`FinalExponentiation` to `FinalExponentiation(z)` raises it to the d-th power
once more, and reproduces `FinalExponentiation(z)` exactly when
`FinalExponentiation(z)` is the identity. -/
theorem C7_finalExponentiation_twice {F K : Type} [Field K] (pr : Pairing F K)
    (hpr : IsPowerModel pr) (z : K) (hord : z ^ (bw6_p ^ 6 - 1) = 1) :
    pr.FinalExponentiation (pr.FinalExponentiation z []) []
        = (pr.FinalExponentiation z []) ^ finalExpD ∧
      (pr.FinalExponentiation (pr.FinalExponentiation z []) [] = pr.FinalExponentiation z []
        ↔ pr.FinalExponentiation z [] = 1) :=
  FinalExponentiation_twice pr hpr z hord

/-- C7 amended, at the power-map capability on ℚ and z = -1. -/
theorem C7_finalExponentiation_twice_witness :
    IsPowerModel (powPairing ℚ) ∧ (-1 : ℚ) ^ (bw6_p ^ 6 - 1) = 1 ∧
      ((powPairing ℚ).FinalExponentiation ((powPairing ℚ).FinalExponentiation (-1) []) []
          = ((powPairing ℚ).FinalExponentiation (-1) []) ^ finalExpD ∧
        ((powPairing ℚ).FinalExponentiation ((powPairing ℚ).FinalExponentiation (-1) []) []
            = (powPairing ℚ).FinalExponentiation (-1) []
          ↔ (powPairing ℚ).FinalExponentiation (-1) [] = 1)) :=
  ⟨powPairing_isPowerModel ℚ, neg_one_pow_gtOrder,
    C7_finalExponentiation_twice (powPairing ℚ) (powPairing_isPowerModel ℚ) (-1)
      (neg_one_pow_gtOrder)⟩

/-- C8. Every digit read by `firstLoop` (indices 62..0 of `loopCounter1`) and by
`secondLoop` (indices 188..0 of `loopCounter2`) is in {-1, 0, 1}, and for all P
and Q `firstLoop`, `secondLoop`, `MillerLoop` and `Pair` return a value and a nil
error. -/
theorem C8_no_invalid_digit_error :
    validDigits loopCounter1 63 ∧ validDigits loopCounter2 189 ∧
      ∀ (F G : Type) (pr : Pairing F G) (P : G1Affine F) (Q : G2Affine F),
        (∃ v, pr.firstLoop P Q = .ret (some v) none) ∧
        (∃ v, pr.secondLoop P Q = .ret (some v) none) ∧
        (∃ v, pr.MillerLoop P Q = .ret (some v) none) ∧
        (∃ v, pr.Pair P Q = .ret (some v) none) := by
  refine ⟨validDigits_loopCounter1, validDigits_loopCounter2, ?_⟩
  intro F G pr P Q
  obtain ⟨ml1, ml2, h1, h2, h3⟩ := MillerLoop_ret pr P Q
  obtain ⟨f, _, h4⟩ := Pair_ret pr P Q
  exact ⟨⟨ml1, h1⟩, ⟨ml2, h2⟩, ⟨_, h3⟩, ⟨_, h4⟩⟩

set_option maxRecDepth 100000 in
/-- C10. The table `loopCounter1` encodes x₀+1 for the seed
x₀ = 9586122913090633729: the sum over all its entries of
`loopCounter1[i] * 2^i` equals 9586122913090633730. -/
theorem C10_loopCounter1_encodes_seed_plus_one :
    nafValue loopCounter1 = 9586122913090633730 ∧ ((x0 : Int) + 1 = 9586122913090633730) := by
  decide

/-! ## The point and line formulas over a field -/

/-- The field operations of `K` are a field model. -/
theorem fieldPairing_isFieldModel (K : Type) [Field K] : IsFieldModel (fieldPairing K) where
  add_eq _ _ := rfl
  sub_eq _ _ := rfl
  neg_eq _ := rfl
  mul_eq _ _ := rfl
  mulMod_eq _ _ := rfl
  mulConst_eq _ _ := rfl
  div_eq _ _ := rfl
  inverse_eq _ := rfl

/-- In a field model `doubleStep` returns the tangent-line doubling formulas. -/
theorem doubleStep_eq {K G : Type} [Field K] (pr : Pairing K G) (hpr : IsFieldModel pr)
    (x y : K) :
    pr.doubleStep ⟨x, y⟩ =
      (⟨(3 * x ^ 2 / (2 * y)) ^ 2 - 2 * x,
        3 * x ^ 2 / (2 * y) * (x - ((3 * x ^ 2 / (2 * y)) ^ 2 - 2 * x)) - y⟩,
       ⟨-(3 * x ^ 2 / (2 * y)), 3 * x ^ 2 / (2 * y) * x - y⟩) := by
  have hl : x * x * ((3 : Int) : K) / (y + y) = 3 * x ^ 2 / (2 * y) := by
    push_cast
    congr 1 <;> ring
  simp only [Pairing.doubleStep, hpr.add_eq, hpr.sub_eq, hpr.neg_eq, hpr.mul_eq,
    hpr.mulConst_eq, hpr.div_eq, hl]
  refine Prod.ext (congrArg₂ G2Affine.mk ?_ ?_) rfl <;> ring

/-- In a field model `addStep` returns the chord addition formulas. -/
theorem addStep_eq {K G : Type} [Field K] (pr : Pairing K G) (hpr : IsFieldModel pr)
    (x1 y1 x2 y2 : K) :
    pr.addStep ⟨x1, y1⟩ ⟨x2, y2⟩ =
      (⟨((y2 - y1) / (x2 - x1)) ^ 2 - x1 - x2,
        (y2 - y1) / (x2 - x1) * (x1 - (((y2 - y1) / (x2 - x1)) ^ 2 - x1 - x2)) - y1⟩,
       ⟨-((y2 - y1) / (x2 - x1)), (y2 - y1) / (x2 - x1) * x1 - y1⟩) := by
  simp only [Pairing.addStep, hpr.add_eq, hpr.sub_eq, hpr.neg_eq, hpr.mul_eq, hpr.div_eq]
  refine Prod.ext (congrArg₂ G2Affine.mk ?_ ?_) rfl <;> ring

/-- The doubled point of y² = x³ + b is on the curve. -/
theorem double_on_curve {K : Type} [Field K] (h2 : (2 : K) ≠ 0) (b x y : K)
    (hon : y ^ 2 = x ^ 3 + b) (hy : y ≠ 0) :
    (3 * x ^ 2 / (2 * y) * (x - ((3 * x ^ 2 / (2 * y)) ^ 2 - 2 * x)) - y) ^ 2
      = ((3 * x ^ 2 / (2 * y)) ^ 2 - 2 * x) ^ 3 + b := by
  have h2y : 2 * y ≠ 0 := mul_ne_zero h2 hy
  have hb : b = y ^ 2 - x ^ 3 := by rw [hon]; ring
  subst hb
  field_simp
  ring

/-- The chord through two points of y² = x³ + b with slope l meets the curve
again at the point whose reflection is the chord sum. -/
theorem chord_on_curve {K : Type} [Field K] (b x1 y1 x2 y2 l : K)
    (h1 : y1 ^ 2 = x1 ^ 3 + b) (h2 : y2 ^ 2 = x2 ^ 3 + b) (hx : x1 ≠ x2)
    (hl : l * (x2 - x1) = y2 - y1) :
    (l * (x1 - (l ^ 2 - x1 - x2)) - y1) ^ 2 = (l ^ 2 - x1 - x2) ^ 3 + b := by
  have hd : x2 - x1 ≠ 0 := sub_ne_zero.mpr (Ne.symm hx)
  have key : (x2 - x1) * ((l * (x1 - (l ^ 2 - x1 - x2)) - y1) ^ 2
      - ((l ^ 2 - x1 - x2) ^ 3 + b)) = 0 := by
    linear_combination (x2 - (l ^ 2 - x1 - x2)) * h1 + ((l ^ 2 - x1 - x2) - x1) * h2
      + ((l ^ 2 - x1 - x2) - x1) * (y2 + l * (x2 - x1) + y1) * hl
  exact sub_eq_zero.mp ((mul_eq_zero.mp key).resolve_left hd)

/-- The chord sum of two points of y² = x³ + b with different abscissas is on
the curve. -/
theorem add_on_curve {K : Type} [Field K] (b x1 y1 x2 y2 : K)
    (h1 : y1 ^ 2 = x1 ^ 3 + b) (h2 : y2 ^ 2 = x2 ^ 3 + b) (hx : x1 ≠ x2) :
    ((y2 - y1) / (x2 - x1) * (x1 - (((y2 - y1) / (x2 - x1)) ^ 2 - x1 - x2)) - y1) ^ 2
      = (((y2 - y1) / (x2 - x1)) ^ 2 - x1 - x2) ^ 3 + b :=
  chord_on_curve b x1 y1 x2 y2 _ h1 h2 hx
    (div_mul_cancel₀ _ (sub_ne_zero.mpr (Ne.symm hx)))

open WeierstrassCurve.Affine in
/-- An affine point with rewritten coordinates. -/
theorem point_some_congr {K : Type} [Field K] {W : WeierstrassCurve.Affine K} {x y x2 y2 : K}
    (h : W.Nonsingular x y) (ex : x = x2) (ey : y = y2) :
    ∃ h2 : W.Nonsingular x2 y2, Point.some h = Point.some h2 := by
  subst ex; subst ey; exact ⟨h, rfl⟩

open WeierstrassCurve.Affine in
/-- A point of y² = x³ + b with y ≠ 0 is nonsingular when 2 ≠ 0. -/
theorem shortCurve_nonsingular {K : Type} [Field K] (h2 : (2 : K) ≠ 0) (b x y : K)
    (hon : y ^ 2 = x ^ 3 + b) (hy : y ≠ 0) : (shortCurve b).Nonsingular x y := by
  rw [nonsingular_iff, equation_iff]
  simp only [shortCurve]
  refine ⟨by rw [hon]; ring, Or.inr ?_⟩
  intro h
  have : 2 * y = 0 := by linear_combination h
  exact (mul_ne_zero h2 hy) this

open WeierstrassCurve.Affine in
/-- The doubling formula is the doubling of the group law of the Weierstrass
curve y² = x³ + b. -/
theorem double_eq_point_add {K : Type} [Field K] [DecidableEq K] (h2 : (2 : K) ≠ 0)
    (b x y : K) (hon : y ^ 2 = x ^ 3 + b) (hy : y ≠ 0) :
    ∃ h : (shortCurve b).Nonsingular
        ((3 * x ^ 2 / (2 * y)) ^ 2 - 2 * x)
        (3 * x ^ 2 / (2 * y) * (x - ((3 * x ^ 2 / (2 * y)) ^ 2 - 2 * x)) - y),
      Point.some (shortCurve_nonsingular h2 b x y hon hy)
        + Point.some (shortCurve_nonsingular h2 b x y hon hy) = Point.some h := by
  have hne : y ≠ (shortCurve b).negY x y := by
    intro h
    simp only [negY, shortCurve] at h
    have : 2 * y = 0 := by linear_combination h
    exact (mul_ne_zero h2 hy) this
  have hs : (shortCurve b).slope x x y y = 3 * x ^ 2 / (2 * y) := by
    rw [slope_of_Y_ne rfl hne]
    simp only [negY, shortCurve]
    congr 1 <;> ring
  rw [Point.add_self_of_Y_ne hne]
  apply point_some_congr
  · rw [hs]; simp only [addX, shortCurve]; ring
  · rw [hs]; simp only [addY, negAddY, negY, addX, shortCurve]; ring

open WeierstrassCurve.Affine in
/-- The chord formula is the addition of the group law of the Weierstrass curve
y² = x³ + b, for nonsingular points with different abscissas. -/
theorem chord_eq_point_add {K : Type} [Field K] [DecidableEq K] (b x1 y1 x2 y2 : K)
    (h1 : (shortCurve b).Nonsingular x1 y1) (h2 : (shortCurve b).Nonsingular x2 y2)
    (hx : x1 ≠ x2) :
    ∃ h : (shortCurve b).Nonsingular
        (((y2 - y1) / (x2 - x1)) ^ 2 - x1 - x2)
        ((y2 - y1) / (x2 - x1) * (x1 - (((y2 - y1) / (x2 - x1)) ^ 2 - x1 - x2)) - y1),
      Point.some h1 + Point.some h2 = Point.some h := by
  have hs : (shortCurve b).slope x1 x2 y1 y2 = (y2 - y1) / (x2 - x1) := by
    rw [slope_of_X_ne hx, ← neg_sub y2 y1, ← neg_sub x2 x1, neg_div_neg_eq]
  rw [Point.add_of_X_ne hx]
  apply point_some_congr
  · rw [hs]; simp only [addX, shortCurve]; ring
  · rw [hs]; simp only [addY, negAddY, negY, addX, shortCurve]; ring

/-- In a field model `doubleAndAddStep` is given by the two slopes
l1 = (y1 - y2)/(x1 - x2) and l2 = -(2y1/(x3 - x1) + l1), with
x3 = l1² - x1 - x2 and x4 = l2² - x1 - x3. -/
theorem doubleAndAddStep_eq {K G : Type} [Field K] (pr : Pairing K G) (hpr : IsFieldModel pr)
    (x1 y1 x2 y2 l1 x3 l2 x4 : K) (hl1 : l1 = (y1 - y2) / (x1 - x2))
    (hx3 : x3 = l1 * l1 - x1 - x2) (hl2 : l2 = -((y1 + y1) / (x3 - x1) + l1))
    (hx4 : x4 = l2 * l2 - x1 - x3) :
    pr.doubleAndAddStep ⟨x1, y1⟩ ⟨x2, y2⟩ =
      (⟨x4, l2 * (x1 - x4) - y1⟩, ⟨-l1, l1 * x1 - y1⟩, ⟨-l2, l2 * x1 - y1⟩) := by
  subst hl1 hx3 hl2 hx4
  simp only [Pairing.doubleAndAddStep, hpr.add_eq, hpr.sub_eq, hpr.neg_eq, hpr.mul_eq,
    hpr.div_eq]

/-- In a field model the fused step returns the point of two chord additions,
(p1 + p2) + p1, when the abscissa x3 of p1 + p2 is not x1. -/
theorem doubleAndAddStep_point {K G : Type} [Field K] (pr : Pairing K G)
    (hpr : IsFieldModel pr) (x1 y1 x2 y2 : K)
    (hx3 : (pr.addStep ⟨x1, y1⟩ ⟨x2, y2⟩).1.X ≠ x1) :
    (pr.doubleAndAddStep ⟨x1, y1⟩ ⟨x2, y2⟩).1
      = (pr.addStep (pr.addStep ⟨x1, y1⟩ ⟨x2, y2⟩).1 ⟨x1, y1⟩).1 := by
  rw [addStep_eq pr hpr] at hx3 ⊢
  rw [addStep_eq pr hpr, doubleAndAddStep_eq pr hpr x1 y1 x2 y2 _ _ _ _ rfl rfl rfl rfl]
  simp only at hx3 ⊢
  have hl : (y1 - y2) / (x1 - x2) = (y2 - y1) / (x2 - x1) := by
    rw [← neg_sub y2 y1, ← neg_sub x2 x1, neg_div_neg_eq]
  rw [hl]
  generalize (y2 - y1) / (x2 - x1) = l at hx3 ⊢
  have hd3 : l ^ 2 - x1 - x2 - x1 ≠ 0 := sub_ne_zero.mpr hx3
  have hd4 : x1 - (l ^ 2 - x1 - x2) ≠ 0 := sub_ne_zero.mpr (Ne.symm hx3)
  have hd3b : l * l - x1 - x2 - x1 ≠ 0 := by rw [← pow_two]; exact hd3
  have hm : -((y1 + y1) / (l * l - x1 - x2 - x1) + l)
      = (y1 - (l * (x1 - (l ^ 2 - x1 - x2)) - y1)) / (x1 - (l ^ 2 - x1 - x2)) := by
    field_simp
    ring
  rw [hm]
  have hmd : (y1 - (l * (x1 - (l ^ 2 - x1 - x2)) - y1)) / (x1 - (l ^ 2 - x1 - x2))
      * (x1 - (l ^ 2 - x1 - x2)) = y1 - (l * (x1 - (l ^ 2 - x1 - x2)) - y1) :=
    div_mul_cancel₀ _ hd4
  generalize (y1 - (l * (x1 - (l ^ 2 - x1 - x2)) - y1)) / (x1 - (l ^ 2 - x1 - x2)) = m at hmd
  refine congrArg₂ G2Affine.mk (by ring) ?_
  linear_combination hmd

/-- The line of `lineCompute` is the line `addStep` returns. -/
theorem lineCompute_eq_addStep {F G : Type} (pr : Pairing F G) (p1 p2 : G2Affine F) :
    pr.lineCompute p1 p2 = (pr.addStep p1 p2).2 := rfl

/-- In a field model `lineCompute` returns (-l, l·x1 - y1) for the chord slope
l = (y2 - y1)/(x2 - x1). -/
theorem lineCompute_eq {K G : Type} [Field K] (pr : Pairing K G) (hpr : IsFieldModel pr)
    (p1 p2 : G2Affine K) :
    pr.lineCompute p1 p2
      = ⟨-((p2.Y - p1.Y) / (p2.X - p1.X)), (p2.Y - p1.Y) / (p2.X - p1.X) * p1.X - p1.Y⟩ := by
  simp only [Pairing.lineCompute, hpr.sub_eq, hpr.neg_eq, hpr.mul_eq, hpr.div_eq]

/-- The line of `lineCompute` vanishes at both points. -/
theorem lineCompute_through {K G : Type} [Field K] (pr : Pairing K G) (hpr : IsFieldModel pr)
    (p1 p2 : G2Affine K) (hx : p1.X ≠ p2.X) :
    p1.Y + (pr.lineCompute p1 p2).R0 * p1.X + (pr.lineCompute p1 p2).R1 = 0 ∧
      p2.Y + (pr.lineCompute p1 p2).R0 * p2.X + (pr.lineCompute p1 p2).R1 = 0 := by
  rw [lineCompute_eq pr hpr]
  have hd : p2.X - p1.X ≠ 0 := sub_ne_zero.mpr (Ne.symm hx)
  have hl : (p2.Y - p1.Y) / (p2.X - p1.X) * (p2.X - p1.X) = p2.Y - p1.Y :=
    div_mul_cancel₀ _ hd
  generalize (p2.Y - p1.Y) / (p2.X - p1.X) = l at hl
  constructor
  · simp only; ring
  · simp only; linear_combination -hl

/-- A line that vanishes at a point with non-zero ordinate vanishes there in the
normalised form. -/
theorem line_normalised {K : Type} [Field K] (x y r0 r1 : K) (h : y + r0 * x + r1 = 0)
    (hy : y ≠ 0) : 1 + r0 * (x / y) + r1 * (1 / y) = 0 := by
  field_simp
  linear_combination h

/-! ## Range check and powers -/

/-- The digits of an assignment that satisfies `ToBinary` are boolean, there are
`nbBits` of them and their weighted sum is `v` modulo `q`. -/
theorem ToBinary_iff (q v nbBits : Nat) (digits : List Nat) :
    ToBinary q v nbBits digits = true ↔
      digits.length = nbBits ∧ (∀ d ∈ digits, d = 0 ∨ d = 1) ∧
        Nat.ofDigits 2 digits % q = v % q := by
  simp [ToBinary, and_assoc]

/-- The weighted sum of boolean digits is below 2 to their number. -/
theorem ofDigits_two_lt (digits : List Nat) (h : ∀ d ∈ digits, d = 0 ∨ d = 1) :
    Nat.ofDigits 2 digits < 2 ^ digits.length := by
  apply Nat.ofDigits_lt_base_pow_length (by decide)
  intro d hd
  rcases h d hd with rfl | rfl <;> decide

/-- A satisfied range check bounds a value of the native field by 2^nbBits. -/
theorem Check_sound (q v nbBits : Nat) (hv : v < q) (digits : List Nat)
    (hsat : plainChecker.Check q v nbBits digits = true) : v < 2 ^ nbBits := by
  obtain ⟨hlen, hbool, hsum⟩ := (ToBinary_iff q v nbBits digits).mp hsat
  have h1 := ofDigits_two_lt digits hbool
  rw [hlen] at h1
  rw [Nat.mod_eq_of_lt hv] at hsum
  calc v = Nat.ofDigits 2 digits % q := hsum.symm
    _ ≤ Nat.ofDigits 2 digits := Nat.mod_le _ _
    _ < 2 ^ nbBits := h1

/-- Every value below 2^nbBits has a binary decomposition on nbBits digits. -/
theorem exists_digits (nbBits : Nat) :
    ∀ v, v < 2 ^ nbBits →
      ∃ digits : List Nat, digits.length = nbBits ∧ (∀ d ∈ digits, d = 0 ∨ d = 1) ∧
        Nat.ofDigits 2 digits = v := by
  induction nbBits with
  | zero =>
    intro v hv
    have : v = 0 := by simpa using hv
    exact ⟨[], rfl, by simp, by simp [this]⟩
  | succ n ih =>
    intro v hv
    have hhalf : v / 2 < 2 ^ n := by
      rw [Nat.div_lt_iff_lt_mul (by decide)]
      rw [pow_succ] at hv
      exact hv
    obtain ⟨l, hlen, hbool, hsum⟩ := ih (v / 2) hhalf
    refine ⟨(v % 2) :: l, by simp [hlen], ?_, ?_⟩
    · intro d hd
      rcases List.mem_cons.mp hd with rfl | hd
      · exact Nat.mod_two_eq_zero_or_one v
      · exact hbool d hd
    · rw [Nat.ofDigits_cons, hsum]
      exact Nat.mod_add_div v 2

/-- The range check can be satisfied for every value below 2^nbBits. -/
theorem Check_complete (q v nbBits : Nat) (hv : v < 2 ^ nbBits) :
    ∃ digits, plainChecker.Check q v nbBits digits = true := by
  obtain ⟨l, hlen, hbool, hsum⟩ := exists_digits nbBits v hv
  exact ⟨l, (ToBinary_iff q v nbBits l).mpr ⟨hlen, hbool, by rw [hsum]⟩⟩

/-- The loop of `powers` fills the slice with the successive powers. -/
theorem powersLoop_spec {K : Type} [Monoid K] (a : K) :
    ∀ (k i : Nat) (rest : List K), 1 ≤ i → rest.length = k →
      powersLoop a k i ((List.range i).map (fun j => a ^ j) ++ rest)
        = some ((List.range (i + k)).map (fun j => a ^ j)) := by
  intro k
  induction k with
  | zero =>
    intro i rest _ hr
    have : rest = [] := List.length_eq_zero.mp hr
    simp [powersLoop, this]
  | succ k ih =>
    intro i rest hi hr
    obtain ⟨r, rest2, rfl⟩ : ∃ r rest2, rest = r :: rest2 := by
      cases rest with
      | nil => simp at hr
      | cons r rest2 => exact ⟨r, rest2, rfl⟩
    have hlen : ((List.range i).map (fun j => a ^ j)).length = i := by simp
    have hi1 : i - 1 < ((List.range i).map (fun j => a ^ j)).length := by
      rw [hlen]; omega
    have hprev : ((List.range i).map (fun j => a ^ j) ++ r :: rest2)[i - 1]?
        = some (a ^ (i - 1)) := by
      rw [List.getElem?_append_left hi1, List.getElem?_map, List.getElem?_range (by omega)]
      rfl
    have hlt : i < ((List.range i).map (fun j => a ^ j) ++ r :: rest2).length := by
      simp
    have hset : ((List.range i).map (fun j => a ^ j) ++ r :: rest2).set i (a ^ (i - 1) * a)
        = (List.range (i + 1)).map (fun j => a ^ j) ++ rest2 := by
      have hpow : a ^ (i - 1) * a = a ^ i := by
        rw [← pow_succ, Nat.sub_add_cancel hi]
      rw [hpow, List.set_append_right _ _ (by rw [hlen]), hlen, Nat.sub_self, List.set_cons_zero,
        List.range_succ, List.map_append]
      simp
    have hrec := ih (i + 1) rest2 (by omega) (by simpa using hr)
    have hik : i + 1 + k = i + (k + 1) := by omega
    rw [hik] at hrec
    simp only [powersLoop, hprev, hlt, if_true, hset]
    exact hrec

/-- For n ≥ 1, `powers(a, n)` returns `[1, a, a², …, aⁿ⁻¹]`. -/
theorem powers_succ {K : Type} [MonoidWithZero K] (a : K) (k : Nat) :
    powers a ((k + 1 : Nat) : Int) = some ((List.range (k + 1)).map (fun j => a ^ j)) := by
  have hn : ¬ (((k + 1 : Nat) : Int) < 0) := by omega
  have h := powersLoop_spec a k 1 (List.replicate k (0 : K)) (le_refl 1)
    (List.length_replicate k 0)
  have h1 : (List.range 1).map (fun j => a ^ j) = [1] := by
    show [a ^ 0] = [1]
    rw [pow_zero]
  rw [h1, Nat.add_comm] at h
  have hpos : 0 < (0 :: List.replicate k (0 : K)).length := Nat.succ_pos _
  simp only [powers, hn, if_false, Int.toNat_ofNat, Nat.add_sub_cancel, List.replicate_succ,
    List.set_cons_zero, hpos, if_true]
  exact h

/-- At n = 0 `powers` stops in a panic. -/
theorem powers_zero {K : Type} [MonoidWithZero K] (a : K) : powers a 0 = none := by
  simp [powers]

/-! ## The claims on the tables, the step formulas and the utilities -/

set_option maxRecDepth 100000 in
/-- C11. The table `loopCounter2` encodes x₀³ - x₀² - x₀ for the seed
x₀ = 9586122913090633729: the sum over all its entries of
`loopCounter2[i] * 2^i` equals x₀³ - x₀² - x₀. -/
theorem C11_loopCounter2_encodes :
    nafValue loopCounter2 = (x0 : Int) ^ 3 - (x0 : Int) ^ 2 - (x0 : Int) := by
  decide

/-- C12, as stated, fails: the two digit tables do not have lengths 63 and
189. -/
theorem C12_lengths_counterexample :
    ¬ (loopCounter1.length = 63 ∧ loopCounter2.length = 189) := by
  decide

set_option maxRecDepth 100000 in
/-- C12, amended. The two fixed digit tables have lengths 64 (`loopCounter1`)
and 190 (`loopCounter2`); the sub-loops read the 63 and 189 digits below the
leading one, from index 62 and from index 188 down to 0, and the leading digit
of each table is 1. -/
theorem C12_lengths :
    loopCounter1.length = 64 ∧ loopCounter2.length = 190 ∧
      loopCounter1[63]? = some 1 ∧ loopCounter2[189]? = some 1 ∧
      (∀ (F G : Type) (pr : Pairing F G) (P : G1Affine F) (Q : G2Affine F),
        pr.firstLoop P Q
            = pr.loopFrom loopCounter1 Q ⟨Q.X, pr.curveF.Neg Q.Y⟩ (pr.curveF.Inverse P.Y)
                (pr.curveF.MulMod P.X (pr.curveF.Inverse P.Y)) 63 pr.Ext6.One Q ∧
          pr.secondLoop P Q
            = pr.loopFrom loopCounter2 Q ⟨Q.X, pr.curveF.Neg Q.Y⟩ (pr.curveF.Inverse P.Y)
                (pr.curveF.MulMod P.X (pr.curveF.Inverse P.Y)) 189 pr.Ext6.One Q) := by
  refine ⟨by decide, by decide, by decide, by decide, ?_⟩
  intro F G pr P Q
  exact ⟨rfl, rfl⟩

/-- C13. Over a field with 2 ≠ 0, for every b and every point P = (x, y) with
y² = x³ + b and y ≠ 0, the point `doubleStep(P)` returns is (xr, yr) with
λ = 3x²/(2y), xr = λ² - 2x, yr = λ(x - xr) - y; it satisfies yr² = xr³ + b and it
is P + P in the group law of the Weierstrass curve y² = x³ + b. -/
theorem C13_doubleStep_doubles {K G : Type} [Field K] [DecidableEq K] (pr : Pairing K G)
    (hpr : IsFieldModel pr) (h2 : (2 : K) ≠ 0) (b x y : K) (hon : y ^ 2 = x ^ 3 + b)
    (hy : y ≠ 0) :
    (pr.doubleStep ⟨x, y⟩).1
        = ⟨(3 * x ^ 2 / (2 * y)) ^ 2 - 2 * x,
            3 * x ^ 2 / (2 * y) * (x - ((3 * x ^ 2 / (2 * y)) ^ 2 - 2 * x)) - y⟩ ∧
      (pr.doubleStep ⟨x, y⟩).1.Y ^ 2 = (pr.doubleStep ⟨x, y⟩).1.X ^ 3 + b ∧
      ∃ h : (shortCurve b).Nonsingular (pr.doubleStep ⟨x, y⟩).1.X (pr.doubleStep ⟨x, y⟩).1.Y,
        WeierstrassCurve.Affine.Point.some (shortCurve_nonsingular h2 b x y hon hy)
          + WeierstrassCurve.Affine.Point.some (shortCurve_nonsingular h2 b x y hon hy)
          = WeierstrassCurve.Affine.Point.some h := by
  rw [doubleStep_eq pr hpr]
  exact ⟨rfl, double_on_curve h2 b x y hon hy, double_eq_point_add h2 b x y hon hy⟩

/-- C13, on the curve y² = x³ + 1 over ℚ at the point (2, 3). -/
theorem C13_doubleStep_doubles_witness :
    IsFieldModel (fieldPairing ℚ) ∧ (2 : ℚ) ≠ 0 ∧ (3 : ℚ) ^ 2 = 2 ^ 3 + 1 ∧ (3 : ℚ) ≠ 0 ∧
      ((fieldPairing ℚ).doubleStep ⟨2, 3⟩).1.Y ^ 2
        = ((fieldPairing ℚ).doubleStep ⟨2, 3⟩).1.X ^ 3 + 1 :=
  ⟨fieldPairing_isFieldModel ℚ, by norm_num, by norm_num, by norm_num,
    (C13_doubleStep_doubles (fieldPairing ℚ) (fieldPairing_isFieldModel ℚ) (by norm_num) 1 2 3
      (by norm_num) (by norm_num)).2.1⟩

/-- C15. Over a field, for all points p1 = (x1, y1), p2 = (x2, y2) with x1 ≠ x2
and x3 ≠ x1, where (x3, y3) is the point `addStep(p1, p2)` returns, the point
`doubleAndAddStep(p1, p2)` returns equals the point `addStep((x3, y3), p1)`
returns. -/
theorem C15_doubleAndAddStep_eq_two_adds {K G : Type} [Field K] (pr : Pairing K G)
    (hpr : IsFieldModel pr) (p1 p2 : G2Affine K) (_hx : p1.X ≠ p2.X)
    (hx3 : (pr.addStep p1 p2).1.X ≠ p1.X) :
    (pr.doubleAndAddStep p1 p2).1 = (pr.addStep (pr.addStep p1 p2).1 p1).1 := by
  obtain ⟨x1, y1⟩ := p1
  obtain ⟨x2, y2⟩ := p2
  exact doubleAndAddStep_point pr hpr x1 y1 x2 y2 hx3

/-- The abscissa of (2, 3) + (0, 1) over ℚ is -1. -/
theorem addStep_example_X : ((fieldPairing ℚ).addStep ⟨2, 3⟩ ⟨0, 1⟩).1.X = -1 := by
  rw [addStep_eq _ (fieldPairing_isFieldModel ℚ)]
  norm_num

/-- C15, over ℚ at p1 = (2, 3) and p2 = (0, 1), whose sum has abscissa -1. -/
theorem C15_doubleAndAddStep_eq_two_adds_witness :
    IsFieldModel (fieldPairing ℚ) ∧ (2 : ℚ) ≠ 0 ∧
      ((fieldPairing ℚ).addStep ⟨2, 3⟩ ⟨0, 1⟩).1.X ≠ 2 ∧
      ((fieldPairing ℚ).doubleAndAddStep ⟨2, 3⟩ ⟨0, 1⟩).1
        = ((fieldPairing ℚ).addStep ((fieldPairing ℚ).addStep ⟨2, 3⟩ ⟨0, 1⟩).1 ⟨2, 3⟩).1 :=
  ⟨fieldPairing_isFieldModel ℚ, by norm_num, by rw [addStep_example_X]; norm_num,
    C15_doubleAndAddStep_eq_two_adds (fieldPairing ℚ) (fieldPairing_isFieldModel ℚ) ⟨2, 3⟩
      ⟨0, 1⟩ (by norm_num) (by rw [addStep_example_X]; norm_num)⟩

/-- C16. For all points p1 and p2, `lineCompute(p1, p2)` returns the line
evaluation that `addStep(p1, p2)` returns as its second result: R0 = -λ and
R1 = λ·x1 - y1 with λ = (y2 - y1)/(x2 - x1), in the operations of the base
field capability. -/
theorem C16_lineCompute_eq_addStep_line {F G : Type} (pr : Pairing F G)
    (p1 p2 : G2Affine F) :
    pr.lineCompute p1 p2 = (pr.addStep p1 p2).2 ∧
      (pr.lineCompute p1 p2).R0
        = pr.curveF.Neg (pr.curveF.Div (pr.curveF.Sub p2.Y p1.Y) (pr.curveF.Sub p2.X p1.X)) ∧
      (pr.lineCompute p1 p2).R1
        = pr.curveF.Sub
            (pr.curveF.Mul
              (pr.curveF.Div (pr.curveF.Sub p2.Y p1.Y) (pr.curveF.Sub p2.X p1.X)) p1.X)
            p1.Y :=
  ⟨rfl, rfl, rfl⟩

/-- C17. Over a field, for all points p1 = (x1, y1), p2 = (x2, y2) with
x1 ≠ x2, the (R0, R1) that `lineCompute(p1, p2)` returns satisfies
y + R0·x + R1 = 0 at p1 and at p2, hence 1 + R0·(x/y) + R1·(1/y) = 0 at each of
them whose y is non-zero. -/
theorem C17_line_through_both_points {K G : Type} [Field K] (pr : Pairing K G)
    (hpr : IsFieldModel pr) (p1 p2 : G2Affine K) (hx : p1.X ≠ p2.X) :
    p1.Y + (pr.lineCompute p1 p2).R0 * p1.X + (pr.lineCompute p1 p2).R1 = 0 ∧
      p2.Y + (pr.lineCompute p1 p2).R0 * p2.X + (pr.lineCompute p1 p2).R1 = 0 ∧
      (p1.Y ≠ 0 →
        1 + (pr.lineCompute p1 p2).R0 * (p1.X / p1.Y)
          + (pr.lineCompute p1 p2).R1 * (1 / p1.Y) = 0) ∧
      (p2.Y ≠ 0 →
        1 + (pr.lineCompute p1 p2).R0 * (p2.X / p2.Y)
          + (pr.lineCompute p1 p2).R1 * (1 / p2.Y) = 0) := by
  obtain ⟨h1, h2⟩ := lineCompute_through pr hpr p1 p2 hx
  exact ⟨h1, h2, fun hy => line_normalised _ _ _ _ h1 hy,
    fun hy => line_normalised _ _ _ _ h2 hy⟩

/-- C17, over ℚ at p1 = (2, 3) and p2 = (0, 1). -/
theorem C17_line_through_both_points_witness :
    IsFieldModel (fieldPairing ℚ) ∧ (2 : ℚ) ≠ 0 ∧
      (3 : ℚ) + ((fieldPairing ℚ).lineCompute ⟨2, 3⟩ ⟨0, 1⟩).R0 * 2
        + ((fieldPairing ℚ).lineCompute ⟨2, 3⟩ ⟨0, 1⟩).R1 = 0 :=
  ⟨fieldPairing_isFieldModel ℚ, by norm_num,
    (C17_line_through_both_points (fieldPairing ℚ) (fieldPairing_isFieldModel ℚ) ⟨2, 3⟩ ⟨0, 1⟩
      (by norm_num)).1⟩

/-- C18. `NewPairing` fails if and only if constructing the emulated base field
fails: in that case it returns no Pairing and an error whose message starts
with "new base api" (it is "new base api: " followed by the text of the
underlying error) and which wraps the underlying error; otherwise it returns a
Pairing and a nil error. -/
theorem C18_NewPairing_error {A E F G : Type} (newField : A → Except E (CurveF F))
    (errorText : E → String) (newExt6 : CurveF F → Ext6 F G) (zeroField : CurveF F)
    (api : A) :
    ((NewPairing newField errorText newExt6 zeroField api).2.isSome
        ↔ ∃ err, newField api = .error err) ∧
      (∀ err, newField api = .error err →
        ∃ e, NewPairing newField errorText newExt6 zeroField api = (none, some e) ∧
          e.msg = "new base api: " ++ errorText err ∧
          "new base api".data <+: e.msg.data ∧ e.wrapped = err) ∧
      (∀ ba, newField api = .ok ba →
        ∃ pr, NewPairing newField errorText newExt6 zeroField api = (some pr, none)) := by
  refine ⟨?_, ?_, ?_⟩
  · cases h : newField api with
    | error err => simp [NewPairing, h]
    | ok ba => simp [NewPairing, h]
  · intro err h
    refine ⟨⟨"new base api: " ++ errorText err, err⟩, by simp [NewPairing, h], rfl, ?_, rfl⟩
    refine ⟨": ".data ++ (errorText err).data, ?_⟩
    show _ = ("new base api: " ++ errorText err).data
    rw [String.data_append, ← List.append_assoc]
    rfl
  · intro ba h
    exact ⟨⟨newExt6 ba, zeroField⟩, by simp [NewPairing, h]⟩

/-- C19, the code at n = 0. For every a, `powers(a, 0)` does not return the
empty list: the write to `result[0]` is outside the empty slice and the run
stops in a panic. -/
theorem C19_powers_zero_panics {K : Type} [MonoidWithZero K] (a : K) :
    powers a 0 = none ∧ powers a 0 ≠ some [] := by
  rw [powers_zero]
  exact ⟨rfl, by simp⟩

/-- C20. For every bit width n and every value v of the native field (v < q),
an assignment can satisfy `Check(v, n)` only when v < 2^n; in particular for
v = 2^n no assignment satisfies it. -/
theorem C20_rangecheck_bound (q v n : Nat) (hv : v < q) :
    (∀ digits, plainChecker.Check q v n digits = true → v < 2 ^ n) ∧
      (v = 2 ^ n → ∀ digits, plainChecker.Check q v n digits = false) := by
  refine ⟨fun digits h => Check_sound q v n hv digits h, ?_⟩
  intro hvn digits
  cases hc : plainChecker.Check q v n digits with
  | false => rfl
  | true =>
    have := Check_sound q v n hv digits hc
    rw [hvn] at this
    exact absurd this (lt_irrefl _)

/-- C20, at the values of the regression test (n = 7, v = 128 = 1 << 7), over
the scalar field of BN254. -/
theorem C20_rangecheck_bound_witness :
    128 < 21888242871839275222246405745257275088548364400416034343698204186575808495617 ∧
      ((∀ digits, plainChecker.Check
          21888242871839275222246405745257275088548364400416034343698204186575808495617
          128 7 digits = true → 128 < 2 ^ 7) ∧
        (128 = 2 ^ 7 → ∀ digits, plainChecker.Check
          21888242871839275222246405745257275088548364400416034343698204186575808495617
          128 7 digits = false)) :=
  ⟨by decide, C20_rangecheck_bound _ 128 7 (by decide)⟩

/-! ## The parts of the final exponentiation -/

/-- The final exponentiation is the loop over the extras, the easy part and the
hard part, in that order. -/
theorem FinalExponentiation_eq_parts {F G : Type} (pr : Pairing F G) (z : G) (extra : List G) :
    pr.FinalExponentiation z extra
      = pr.hardPart (pr.easyPart
          (extra.foldl (fun result a => pr.Ext6.Mul result a) (pr.Ext6.Set z))) := rfl

/-- The hard part ends with the multiplication by `f0_36`, which is computed
from `f0`. -/
theorem hardPart_eq_mul_f0_36 {F G : Type} (pr : Pairing F G) (result : G) :
    ∃ h, pr.hardPart result
      = pr.Ext6.Mul h (pr.hardPartF0_36 (pr.hardPartF0 result)) := ⟨_, rfl⟩

/-- Simulation principle for the hard part: a relation between two target-group
types that every operation of the hard part preserves is preserved by the hard
part.  The proof follows the source line by line. -/
theorem hardPart_sim {F1 G1 F2 G2 : Type} (p1 : Pairing F1 G1) (p2 : Pairing F2 G2)
    (R : G1 → G2 → Prop)
    (hMul : ∀ a b x y, R a b → R x y → R (p1.Ext6.Mul a x) (p2.Ext6.Mul b y))
    (hCyclotomicSquare : ∀ a b, R a b →
      R (p1.Ext6.CyclotomicSquare a) (p2.Ext6.CyclotomicSquare b))
    (hConjugate : ∀ a b, R a b → R (p1.Ext6.Conjugate a) (p2.Ext6.Conjugate b))
    (hFrobenius : ∀ a b, R a b → R (p1.Ext6.Frobenius a) (p2.Ext6.Frobenius b))
    (hExpt : ∀ a b, R a b → R (p1.Ext6.Expt a) (p2.Ext6.Expt b))
    (hExpc1 : ∀ a b, R a b → R (p1.Ext6.Expc1 a) (p2.Ext6.Expc1 b))
    (hExpc2 : ∀ a b, R a b → R (p1.Ext6.Expc2 a) (p2.Ext6.Expc2 b))
    (m1 : G1) (m2 : G2) (hm : R m1 m2) :
    R (p1.hardPart m1) (p2.hardPart m2) := by
  have hm1_1 := hExpt _ _ hm
  have hm1c_2 := hConjugate _ _ hm1_1
  have hm2_3 := hExpt _ _ hm1_1
  have hm2c_4 := hConjugate _ _ hm2_3
  have hm3_5 := hExpt _ _ hm2_3
  have hf0_6 := hFrobenius _ _ hm
  have hf0_7 := hMul _ _ _ _ hf0_6 hm
  have hf0_8 := hMul _ _ _ _ hf0_7 hm2_3
  have hm2_9 := hCyclotomicSquare _ _ hm1c_2
  have hf0_10 := hMul _ _ _ _ hf0_8 hm2_9
  have hf0_36_11 := hCyclotomicSquare _ _ hf0_10
  have hf0_36_12 := hCyclotomicSquare _ _ hf0_36_11
  have hf0_36_13 := hCyclotomicSquare _ _ hf0_36_12
  have hf0_36_14 := hMul _ _ _ _ hf0_36_13 hf0_10
  have hf0_36_15 := hCyclotomicSquare _ _ hf0_36_14
  have hf0_36_16 := hCyclotomicSquare _ _ hf0_36_15
  have hg0_17 := hMul _ _ _ _ hm hm1_1
  have hg0_18 := hFrobenius _ _ hg0_17
  have hg0_19 := hMul _ _ _ _ hg0_18 hm3_5
  have hg0_20 := hMul _ _ _ _ hg0_19 hm2c_4
  have hg0_21 := hMul _ _ _ _ hg0_20 hm1c_2
  have hg1_22 := hExpt _ _ hg0_21
  have hg1c_23 := hConjugate _ _ hg1_22
  have hg2_24 := hExpt _ _ hg1_22
  have hg3_25 := hExpt _ _ hg2_24
  have hg3c_26 := hConjugate _ _ hg3_25
  have hg4_27 := hExpt _ _ hg3_25
  have hg4c_28 := hConjugate _ _ hg4_27
  have hg5_29 := hExpt _ _ hg4_27
  have hg5c_30 := hConjugate _ _ hg5_29
  have hg6_31 := hExpt _ _ hg5_29
  have hgA_32 := hMul _ _ _ _ hg3_25 hg5c_30
  have hgA_33 := hCyclotomicSquare _ _ hgA_32
  have hgA_34 := hMul _ _ _ _ hgA_33 hg6_31
  have hgA_35 := hMul _ _ _ _ hgA_34 hg1_22
  have hgA_36 := hMul _ _ _ _ hgA_35 hg0_21
  have hg034_37 := hMul _ _ _ _ hg0_21 hg3_25
  have hg034_38 := hMul _ _ _ _ hg034_37 hg4c_28
  have hgB_39 := hCyclotomicSquare _ _ hg034_38
  have hgB_40 := hMul _ _ _ _ hgB_39 hg034_38
  have hgB_41 := hMul _ _ _ _ hgB_40 hg5_29
  have hgB_42 := hMul _ _ _ _ hgB_41 hg1c_23
  have hg1g2c_43 := hMul _ _ _ _ hg1c_23 hg2_24
  have hgC_44 := hMul _ _ _ _ hg3c_26 hg1g2c_43
  have hgC_45 := hCyclotomicSquare _ _ hgC_44
  have hgC_46 := hMul _ _ _ _ hgC_45 hg1g2c_43
  have hgC_47 := hMul _ _ _ _ hgC_46 hg0_21
  have hgC_48 := hCyclotomicSquare _ _ hgC_47
  have hgC_49 := hMul _ _ _ _ hgC_48 hg2_24
  have hgC_50 := hMul _ _ _ _ hgC_49 hg0_21
  have hgC_51 := hMul _ _ _ _ hgC_50 hg4_27
  have hh1_52 := hExpc1 _ _ hgA_36
  have hh2_53 := hExpc2 _ _ hgB_42
  have hh2g2C_54 := hCyclotomicSquare _ _ hgC_51
  have hh2g2C_55 := hMul _ _ _ _ hh2g2C_54 hh2_53
  have hh4_56 := hCyclotomicSquare _ _ hh2g2C_55
  have hh4_57 := hMul _ _ _ _ hh4_56 hh2g2C_55
  have hh4_58 := hCyclotomicSquare _ _ hh4_57
  have hresult_59 := hMul _ _ _ _ hh1_52 hh4_58
  have hresult_60 := hMul _ _ _ _ hresult_59 hf0_36_16
  exact hresult_60

/-- In a field, with `Mul` the product, `Inverse` the inverse, `Frobenius` the
p-th power and `Conjugate` the p³-th power, the easy part raises a non-zero
element to the power (p³ - 1)(p + 1). -/
theorem easyPart_eq_pow {F K : Type} [Field K] (pr : Pairing F K)
    (hMul : ∀ a b, pr.Ext6.Mul a b = a * b) (hInv : ∀ a, pr.Ext6.Inverse a = a⁻¹)
    (hFrob : ∀ a, pr.Ext6.Frobenius a = a ^ bw6_p)
    (hConj : ∀ a, pr.Ext6.Conjugate a = a ^ (bw6_p ^ 3)) (z : K) (hz : z ≠ 0) :
    pr.easyPart z = z ^ ((bw6_p ^ 3 - 1) * (bw6_p + 1)) := by
  have h1 : (1 : Nat) ≤ bw6_p ^ 3 := by decide
  have hbuf : z ^ (bw6_p ^ 3) * z⁻¹ = z ^ (bw6_p ^ 3 - 1) := by
    rw [pow_sub₀ z hz h1, pow_one]
  simp only [Pairing.easyPart, hMul, hInv, hFrob, hConj, hbuf]
  rw [← pow_succ, ← pow_mul]

/-- The exponents of the easy part and of the cyclotomic subgroup multiply to
p⁶ - 1. -/
theorem easy_mul_cyclotomic_exponent :
    (bw6_p ^ 3 - 1) * (bw6_p + 1) * (bw6_p ^ 2 - bw6_p + 1) = bw6_p ^ 6 - 1 := by decide

/-- An element killed by p⁶ - 1 is not zero. -/
theorem ne_zero_of_pow_gtOrder {K : Type} [Field K] (z : K) (hord : z ^ (bw6_p ^ 6 - 1) = 1) :
    z ≠ 0 := by
  rintro rfl
  have hpos : bw6_p ^ 6 - 1 ≠ 0 := by decide
  rw [zero_pow hpos] at hord
  exact zero_ne_one hord

/-- In the power model the easy part sends every element killed by p⁶ - 1 into
the cyclotomic subgroup. -/
theorem easyPart_inCyclotomicSubgroup {F K : Type} [Field K] (pr : Pairing F K)
    (hpr : IsPowerModel pr) (z : K) (hord : z ^ (bw6_p ^ 6 - 1) = 1) :
    inCyclotomicSubgroup (pr.easyPart z) := by
  unfold inCyclotomicSubgroup
  rw [easyPart_eq_pow pr hpr.mul_eq hpr.inverse_eq hpr.frobenius_eq hpr.conjugate_eq z
    (ne_zero_of_pow_gtOrder z hord), ← pow_mul, easy_mul_cyclotomic_exponent, hord]

/-- The cyclotomic subgroup is closed under products. -/
theorem inCyclotomicSubgroup_mul {K : Type} [Field K] (a b : K)
    (ha : inCyclotomicSubgroup a) (hb : inCyclotomicSubgroup b) :
    inCyclotomicSubgroup (a * b) := by
  unfold inCyclotomicSubgroup at *
  rw [mul_pow, ha, hb, one_mul]

/-- The cyclotomic subgroup is closed under power maps. -/
theorem inCyclotomicSubgroup_pow {K : Type} [Field K] (a : K) (k : Nat)
    (ha : inCyclotomicSubgroup a) : inCyclotomicSubgroup (a ^ k) := by
  unfold inCyclotomicSubgroup at *
  rw [← pow_mul, Nat.mul_comm, pow_mul, ha, one_pow]

/-- In the power model the operations of the hard part keep the cyclotomic
subgroup. -/
theorem hardPart_ops_keep_cyclotomic {F K : Type} [Field K] (pr : Pairing F K)
    (hpr : IsPowerModel pr) :
    (∀ a b, inCyclotomicSubgroup a → inCyclotomicSubgroup b →
        inCyclotomicSubgroup (pr.Ext6.Mul a b)) ∧
      (∀ a, inCyclotomicSubgroup a → inCyclotomicSubgroup (pr.Ext6.Conjugate a)) ∧
      (∀ a, inCyclotomicSubgroup a → inCyclotomicSubgroup (pr.Ext6.Frobenius a)) ∧
      (∀ a, inCyclotomicSubgroup a → inCyclotomicSubgroup (pr.Ext6.Expt a)) ∧
      (∀ a, inCyclotomicSubgroup a → inCyclotomicSubgroup (pr.Ext6.Expc1 a)) ∧
      (∀ a, inCyclotomicSubgroup a → inCyclotomicSubgroup (pr.Ext6.Expc2 a)) ∧
      (∀ a, inCyclotomicSubgroup a → inCyclotomicSubgroup (pr.Ext6.CyclotomicSquare a)) := by
  refine ⟨?_, ?_, ?_, ?_, ?_, ?_, ?_⟩
  · intro a b ha hb; rw [hpr.mul_eq]; exact inCyclotomicSubgroup_mul a b ha hb
  · intro a ha; rw [hpr.conjugate_eq]; exact inCyclotomicSubgroup_pow a _ ha
  · intro a ha; rw [hpr.frobenius_eq]; exact inCyclotomicSubgroup_pow a _ ha
  · intro a ha; rw [hpr.expt_eq]; exact inCyclotomicSubgroup_pow a _ ha
  · intro a ha; rw [hpr.expc1_eq]; exact inCyclotomicSubgroup_pow a _ ha
  · intro a ha; rw [hpr.expc2_eq]; exact inCyclotomicSubgroup_pow a _ ha
  · intro a ha; rw [hpr.cyclotomicSquare_eq]; exact inCyclotomicSubgroup_mul a a ha ha

/-- In the power model, on an element of the cyclotomic subgroup, the hard part
run with a `CyclotomicSquare` that checks membership never fails the check: it
returns the value of the plain hard part, which is in the subgroup. -/
theorem guarded_hardPart {F K : Type} [Field K] [DecidableEq K] (pr : Pairing F K)
    (hpr : IsPowerModel pr) (m : K) (hm : inCyclotomicSubgroup m) :
    (pr.guarded cyclotomicCheck).hardPart (some m)
        = some (pr.hardPart m) ∧ inCyclotomicSubgroup (pr.hardPart m) := by
  obtain ⟨kMul, kConj, kFrob, kExpt, kExpc1, kExpc2, kCyc⟩ := hardPart_ops_keep_cyclotomic pr hpr
  refine hardPart_sim (pr.guarded cyclotomicCheck) pr
    (fun o a => o = some a ∧ inCyclotomicSubgroup a) ?_ ?_ ?_ ?_ ?_ ?_ ?_ (some m) m ⟨rfl, hm⟩
  · rintro _ b _ y ⟨rfl, hb⟩ ⟨rfl, hy⟩
    exact ⟨rfl, kMul b y hb hy⟩
  · rintro _ b ⟨rfl, hb⟩
    refine ⟨?_, kCyc b hb⟩
    show (if cyclotomicCheck b = true then some (pr.Ext6.CyclotomicSquare b)
      else none) = some (pr.Ext6.CyclotomicSquare b)
    have hc : cyclotomicCheck b = true := decide_eq_true hb
    rw [if_pos hc]
  · rintro _ b ⟨rfl, hb⟩; exact ⟨rfl, kConj b hb⟩
  · rintro _ b ⟨rfl, hb⟩; exact ⟨rfl, kFrob b hb⟩
  · rintro _ b ⟨rfl, hb⟩; exact ⟨rfl, kExpt b hb⟩
  · rintro _ b ⟨rfl, hb⟩; exact ⟨rfl, kExpc1 b hb⟩
  · rintro _ b ⟨rfl, hb⟩; exact ⟨rfl, kExpc2 b hb⟩

/-- In the power model the final exponentiation of an element killed by p⁶ - 1,
run with a `CyclotomicSquare` that checks membership in the cyclotomic
subgroup, never fails the check. -/
theorem guarded_FinalExponentiation {F K : Type} [Field K] [DecidableEq K] (pr : Pairing F K)
    (hpr : IsPowerModel pr) (z : K) (hord : z ^ (bw6_p ^ 6 - 1) = 1) :
    (pr.guarded cyclotomicCheck).FinalExponentiation (some z) []
      = some (pr.FinalExponentiation z []) := by
  rw [FinalExponentiation_eq_parts, FinalExponentiation_eq_parts]
  have hset : pr.Ext6.Set z = z := hpr.set_eq z
  have h := (guarded_hardPart pr hpr (pr.easyPart z)
    (easyPart_inCyclotomicSubgroup pr hpr z hord)).1
  have he : (pr.guarded cyclotomicCheck).easyPart
      ((pr.guarded cyclotomicCheck).Ext6.Set (some z))
      = some (pr.easyPart (pr.Ext6.Set z)) := rfl
  simp only [List.foldl]
  rw [he, hset]
  exact h

/-- In the power model `f0_36` is the 36-th power of `f0`. -/
theorem hardPartF0_36_eq_pow {F K : Type} [Field K] (pr : Pairing F K)
    (hpr : IsPowerModel pr) (f0 : K) : pr.hardPartF0_36 f0 = f0 ^ 36 := by
  simp only [Pairing.hardPartF0_36, hpr.mul_eq, hpr.cyclotomicSquare_eq]
  ring

/-! ## The claims on the parts of the final exponentiation -/

/-- C21. In a field where `Mul` is the product, `Inverse` the inverse,
`Frobenius` the p-th power and `Conjugate` the p³-th power, for every non-zero z
the value the easy part computes, `Mul(Frobenius(buf), buf)` with
`buf = Mul(Conjugate(z), Inverse(z))`, equals z^((p³ - 1)(p + 1)). -/
theorem C21_easy_part_exponent {F K : Type} [Field K] (pr : Pairing F K)
    (hMul : ∀ a b, pr.Ext6.Mul a b = a * b) (hInv : ∀ a, pr.Ext6.Inverse a = a⁻¹)
    (hFrob : ∀ a, pr.Ext6.Frobenius a = a ^ bw6_p)
    (hConj : ∀ a, pr.Ext6.Conjugate a = a ^ (bw6_p ^ 3)) (z : K) (hz : z ≠ 0) :
    pr.Ext6.Mul
        (pr.Ext6.Frobenius (pr.Ext6.Mul (pr.Ext6.Conjugate z) (pr.Ext6.Inverse z)))
        (pr.Ext6.Mul (pr.Ext6.Conjugate z) (pr.Ext6.Inverse z))
      = z ^ ((bw6_p ^ 3 - 1) * (bw6_p + 1)) ∧
    pr.easyPart z = z ^ ((bw6_p ^ 3 - 1) * (bw6_p + 1)) ∧
    ∀ extra, pr.FinalExponentiation z extra
      = pr.hardPart (pr.easyPart (extra.foldl (fun r a => pr.Ext6.Mul r a) (pr.Ext6.Set z))) :=
  ⟨easyPart_eq_pow pr hMul hInv hFrob hConj z hz, easyPart_eq_pow pr hMul hInv hFrob hConj z hz,
    fun extra => FinalExponentiation_eq_parts pr z extra⟩

/-- C21, at the power-map capability on ℚ and z = 2. -/
theorem C21_easy_part_exponent_witness :
    (∀ a b, (powPairing ℚ).Ext6.Mul a b = a * b) ∧
      (∀ a, (powPairing ℚ).Ext6.Inverse a = a⁻¹) ∧
      (∀ a, (powPairing ℚ).Ext6.Frobenius a = a ^ bw6_p) ∧
      (∀ a, (powPairing ℚ).Ext6.Conjugate a = a ^ (bw6_p ^ 3)) ∧ (2 : ℚ) ≠ 0 ∧
      (powPairing ℚ).easyPart 2 = (2 : ℚ) ^ ((bw6_p ^ 3 - 1) * (bw6_p + 1)) :=
  ⟨fun _ _ => rfl, fun _ => rfl, fun _ => rfl, fun _ => rfl, two_ne_zero,
    (C21_easy_part_exponent (powPairing ℚ) (fun _ _ => rfl) (fun _ => rfl) (fun _ => rfl)
      (fun _ => rfl) 2 two_ne_zero).2.1⟩

/-- C22. In the power model, for every z killed by p⁶ - 1 (every non-zero
element of F_{p⁶}): the output of the easy part is in the cyclotomic subgroup
(m^(p² - p + 1) = 1); the final exponentiation run with a `CyclotomicSquare`
that checks this membership on its argument never fails the check, so every
argument the hard part passes to `CyclotomicSquare` is in the subgroup; and
`Mul`, `Conjugate`, `Frobenius`, `Expt`, `Expc1`, `Expc2` and `CyclotomicSquare`
keep the subgroup. -/
theorem C22_cyclotomicSquare_arguments {F K : Type} [Field K] [DecidableEq K]
    (pr : Pairing F K) (hpr : IsPowerModel pr) (z : K) (hord : z ^ (bw6_p ^ 6 - 1) = 1) :
    inCyclotomicSubgroup (pr.easyPart z) ∧
      (pr.guarded cyclotomicCheck).hardPart (some (pr.easyPart z))
        = some (pr.hardPart (pr.easyPart z)) ∧
      (pr.guarded cyclotomicCheck).FinalExponentiation (some z) []
        = some (pr.FinalExponentiation z []) ∧
      ((∀ a b, inCyclotomicSubgroup a → inCyclotomicSubgroup b →
          inCyclotomicSubgroup (pr.Ext6.Mul a b)) ∧
        (∀ a, inCyclotomicSubgroup a → inCyclotomicSubgroup (pr.Ext6.Conjugate a)) ∧
        (∀ a, inCyclotomicSubgroup a → inCyclotomicSubgroup (pr.Ext6.Frobenius a)) ∧
        (∀ a, inCyclotomicSubgroup a → inCyclotomicSubgroup (pr.Ext6.Expt a)) ∧
        (∀ a, inCyclotomicSubgroup a → inCyclotomicSubgroup (pr.Ext6.Expc1 a)) ∧
        (∀ a, inCyclotomicSubgroup a → inCyclotomicSubgroup (pr.Ext6.Expc2 a)) ∧
        (∀ a, inCyclotomicSubgroup a →
          inCyclotomicSubgroup (pr.Ext6.CyclotomicSquare a))) :=
  ⟨easyPart_inCyclotomicSubgroup pr hpr z hord,
    (guarded_hardPart pr hpr _ (easyPart_inCyclotomicSubgroup pr hpr z hord)).1,
    guarded_FinalExponentiation pr hpr z hord, hardPart_ops_keep_cyclotomic pr hpr⟩

/-- C22, at the power-map capability on ℚ and z = -1. -/
theorem C22_cyclotomicSquare_arguments_witness :
    IsPowerModel (powPairing ℚ) ∧ (-1 : ℚ) ^ (bw6_p ^ 6 - 1) = 1 ∧
      ((powPairing ℚ).guarded cyclotomicCheck).FinalExponentiation
          (some (-1)) []
        = some ((powPairing ℚ).FinalExponentiation (-1) []) :=
  ⟨powPairing_isPowerModel ℚ, neg_one_pow_gtOrder,
    (C22_cyclotomicSquare_arguments (powPairing ℚ) (powPairing_isPowerModel ℚ) (-1)
      neg_one_pow_gtOrder).2.2.1⟩

/-- C23, as stated, fails: in the discrete-logarithm presentation of the
multiplicative group of F_{p⁶}, `f0_36` computed from the generator (exponent 1)
is not `CyclotomicSquare` applied six times to it (it is the 36-th power, not
the 64-th). -/
theorem C23_six_squarings_counterexample :
    dlogPairing.hardPartF0_36 1 ≠ (dlogPairing.Ext6.CyclotomicSquare)^[6] 1 := by decide

/-- C23, amended. `f0_36` is obtained from `f0` by three cyclotomic squarings, a
multiplication by `f0` and two more cyclotomic squarings, and it is the last
factor multiplied into the result of the hard part. -/
theorem C23_f0_36_chain {F G : Type} (pr : Pairing F G) (f0 result : G) :
    pr.hardPartF0_36 f0
        = pr.Ext6.CyclotomicSquare (pr.Ext6.CyclotomicSquare
            (pr.Ext6.Mul
              (pr.Ext6.CyclotomicSquare (pr.Ext6.CyclotomicSquare
                (pr.Ext6.CyclotomicSquare f0)))
              f0)) ∧
      ∃ h, pr.hardPart result = pr.Ext6.Mul h (pr.hardPartF0_36 (pr.hardPartF0 result)) :=
  ⟨rfl, hardPart_eq_mul_f0_36 pr result⟩

/-! ## The sub-loops against the specification's iteration -/

/-- Once the specification's loop is in the invalid state it stays there. -/
theorem foldl_specIteration_none {F G : Type} (pr : Pairing F G) (Q : G2Affine F)
    (yInv xOverY : F) (digits : List Int) :
    digits.foldl (fun state digit => state.bind (specIteration pr Q yInv xOverY digit)) none
      = none := by
  induction digits with
  | nil => rfl
  | cons d ds ih => exact ih

/-- The digits read from index n are the digit at index n followed by the digits
read from index n - 1. -/
theorem scannedDigits_succ (tbl : List Int) (n : Nat) (h : n < tbl.length) :
    scannedDigits tbl (n + 1) = tbl[n] :: scannedDigits tbl n := by
  unfold scannedDigits
  rw [List.take_succ, List.getElem?_eq_getElem h]
  simp

/-- The `for` statement of the sub-loops computes the specification's iteration
folded over the digits it reads. -/
theorem loopFrom_eq_spec {F G : Type} (pr : Pairing F G) (tbl : List Int) (Q : G2Affine F)
    (yInv xOverY : F) :
    ∀ (n : Nat) (res : G) (Qacc : G2Affine F), n ≤ tbl.length →
      pr.loopFrom tbl Q ⟨Q.X, pr.curveF.Neg Q.Y⟩ yInv xOverY n res Qacc
        = resultOfSpec ((scannedDigits tbl n).foldl
            (fun state digit => state.bind (specIteration pr Q yInv xOverY digit))
            (some (res, Qacc))) := by
  intro n
  induction n with
  | zero => intro res Qacc _; rfl
  | succ k ih =>
    intro res Qacc hlen
    have hk : k < tbl.length := hlen
    have hget : tbl[k]? = some tbl[k] := List.getElem?_eq_getElem hk
    rw [scannedDigits_succ tbl k hk, List.foldl_cons]
    by_cases h0 : tbl[k] = 0
    · simp only [Pairing.loopFrom, hget, h0, if_true, Option.some_bind, specIteration]
      exact ih _ _ (Nat.le_of_lt hk)
    · by_cases h1 : tbl[k] = 1
      · simp only [Pairing.loopFrom, hget, h1, Option.some_bind, specIteration]
        exact ih _ _ (Nat.le_of_lt hk)
      · by_cases h2 : tbl[k] = -1
        · simp only [Pairing.loopFrom, hget, h2, Option.some_bind, specIteration]
          exact ih _ _ (Nat.le_of_lt hk)
        · have hstep : specIteration pr Q yInv xOverY tbl[k] (res, Qacc) = none := by
            simp only [specIteration, h0, h1, h2, if_false]
          simp only [Pairing.loopFrom, hget, h0, h1, h2, if_false, Option.some_bind, hstep,
            foldl_specIteration_none]
          rfl

/-- In a field model the two lines of the fused step are the line through p1
and p2 and the line through p1 and p1 + p2, when x1 ≠ x2 and the abscissa of
p1 + p2 is not x1. -/
theorem doubleAndAddStep_lines {K G : Type} [Field K] (pr : Pairing K G)
    (hpr : IsFieldModel pr) (x1 y1 x2 y2 : K)
    (hx3 : (pr.addStep ⟨x1, y1⟩ ⟨x2, y2⟩).1.X ≠ x1) :
    (pr.doubleAndAddStep ⟨x1, y1⟩ ⟨x2, y2⟩).2.1 = pr.lineCompute ⟨x1, y1⟩ ⟨x2, y2⟩ ∧
      (pr.doubleAndAddStep ⟨x1, y1⟩ ⟨x2, y2⟩).2.2
        = pr.lineCompute ⟨x1, y1⟩ (pr.addStep ⟨x1, y1⟩ ⟨x2, y2⟩).1 := by
  rw [addStep_eq pr hpr] at hx3 ⊢
  rw [doubleAndAddStep_eq pr hpr x1 y1 x2 y2 _ _ _ _ rfl rfl rfl rfl, lineCompute_eq pr hpr,
    lineCompute_eq pr hpr]
  simp only at hx3 ⊢
  have hl : (y1 - y2) / (x1 - x2) = (y2 - y1) / (x2 - x1) := by
    rw [← neg_sub y2 y1, ← neg_sub x2 x1, neg_div_neg_eq]
  rw [hl]
  generalize (y2 - y1) / (x2 - x1) = l at hx3 ⊢
  have hd3 : l ^ 2 - x1 - x2 - x1 ≠ 0 := sub_ne_zero.mpr hx3
  have hd3b : l * l - x1 - x2 - x1 ≠ 0 := by rw [← pow_two]; exact hd3
  have hm : -((y1 + y1) / (l * l - x1 - x2 - x1) + l)
      = (l * (x1 - (l ^ 2 - x1 - x2)) - y1 - y1) / (l ^ 2 - x1 - x2 - x1) := by
    field_simp
    ring
  rw [hm]
  exact ⟨rfl, rfl⟩

/-- In a field model the line of `doubleStep` vanishes at P and at the negation
of the returned point, and its slope λ satisfies 2y·λ = 3x². -/
theorem doubleStep_line {K G : Type} [Field K] (pr : Pairing K G) (hpr : IsFieldModel pr)
    (h2 : (2 : K) ≠ 0) (x y : K) (hy : y ≠ 0) :
    y + (pr.doubleStep ⟨x, y⟩).2.R0 * x + (pr.doubleStep ⟨x, y⟩).2.R1 = 0 ∧
      -(pr.doubleStep ⟨x, y⟩).1.Y
          + (pr.doubleStep ⟨x, y⟩).2.R0 * (pr.doubleStep ⟨x, y⟩).1.X
          + (pr.doubleStep ⟨x, y⟩).2.R1 = 0 ∧
      2 * y * -(pr.doubleStep ⟨x, y⟩).2.R0 = 3 * x ^ 2 := by
  rw [doubleStep_eq pr hpr]
  have h2y : 2 * y ≠ 0 := mul_ne_zero h2 hy
  refine ⟨by simp only; ring, by simp only; ring, ?_⟩
  simp only [neg_neg]
  exact mul_div_cancel₀ _ h2y

/-! ## The claims on the loops, the tables, the lines and the construction -/

set_option maxRecDepth 100000 in
/-- C24. Each sub-loop computes the iteration the specification describes,
folded over the digits it reads: with yInv = Inverse(yP) and
xOverY = MulMod(xP, yInv) computed once, from the state (One, Q), every
iteration squares res and then, for digit 0, doubles Qacc and multiplies the
line in with `MulBy014(res, R1·yInv, R0·xOverY)`; for digit 1 takes
`doubleAndAddStep(Qacc, Q)` and multiplies in line1 and then line2; for digit -1
does the same with (Q.X, -Q.Y). `firstLoop` runs it over the digits 62..0 of
`loopCounter1`, `secondLoop` over the digits 188..0 of `loopCounter2`, and both
end in a state (res, Qacc) whose res they return. -/
theorem C24_loops_follow_spec {F G : Type} (pr : Pairing F G) (P : G1Affine F)
    (Q : G2Affine F) :
    (∃ res Qacc, specLoop pr P Q (scannedDigits loopCounter1 63) = some (res, Qacc) ∧
        pr.firstLoop P Q = .ret (some res) none) ∧
      (∃ res Qacc, specLoop pr P Q (scannedDigits loopCounter2 189) = some (res, Qacc) ∧
        pr.secondLoop P Q = .ret (some res) none) := by
  have h1 : pr.firstLoop P Q
      = resultOfSpec (specLoop pr P Q (scannedDigits loopCounter1 63)) := by
    unfold Pairing.firstLoop Pairing.firstLoopOn specLoop
    exact loopFrom_eq_spec pr loopCounter1 Q _ _ 63 _ _ (by decide)
  have h2 : pr.secondLoop P Q
      = resultOfSpec (specLoop pr P Q (scannedDigits loopCounter2 189)) := by
    unfold Pairing.secondLoop Pairing.secondLoopOn specLoop
    exact loopFrom_eq_spec pr loopCounter2 Q _ _ 189 _ _ (by decide)
  obtain ⟨v1, hv1⟩ := firstLoop_ret pr P Q
  obtain ⟨v2, hv2⟩ := secondLoop_ret pr P Q
  constructor
  · cases hs : specLoop pr P Q (scannedDigits loopCounter1 63) with
    | none =>
      rw [hs, hv1] at h1
      cases h1
    | some st =>
      obtain ⟨res, Qacc⟩ := st
      rw [hs] at h1
      exact ⟨res, Qacc, rfl, h1⟩
  · cases hs : specLoop pr P Q (scannedDigits loopCounter2 189) with
    | none =>
      rw [hs, hv2] at h2
      cases h2
    | some st =>
      obtain ⟨res, Qacc⟩ := st
      rw [hs] at h2
      exact ⟨res, Qacc, rfl, h2⟩

set_option maxRecDepth 100000 in
/-- C25. Both digit tables are in non-adjacent form: for every index i,
`loopCounter1[i]` and `loopCounter1[i+1]` are not both non-zero, and likewise for
`loopCounter2`. -/
theorem C25_tables_are_NAF : isNAF loopCounter1 ∧ isNAF loopCounter2 := by
  decide

set_option maxRecDepth 100000 in
/-- C26. `loopCounter1` has an entry -1 among the indices 62..0 read by
`firstLoop` (at index 46), and `loopCounter2` has an entry -1 among the indices
188..0 read by `secondLoop` (at index 0). -/
theorem C26_negative_digit_present :
    (∃ i, i < 63 ∧ loopCounter1[i]? = some (-1)) ∧
      (∃ i, i < 189 ∧ loopCounter2[i]? = some (-1)) :=
  ⟨⟨46, by decide, by decide⟩, ⟨0, by decide, by decide⟩⟩

/-- C27. Over a field, for all points p1, p2 with x1 ≠ x2 and x3 ≠ x1, where
S = (x3, y3) is the point `addStep(p1, p2)` returns, the first line of
`doubleAndAddStep(p1, p2)` equals `lineCompute(p1, p2)` and the second equals
`lineCompute(p1, S)`. -/
theorem C27_doubleAndAddStep_lines {K G : Type} [Field K] (pr : Pairing K G)
    (hpr : IsFieldModel pr) (p1 p2 : G2Affine K) (_hx : p1.X ≠ p2.X)
    (hx3 : (pr.addStep p1 p2).1.X ≠ p1.X) :
    (pr.doubleAndAddStep p1 p2).2.1 = pr.lineCompute p1 p2 ∧
      (pr.doubleAndAddStep p1 p2).2.2 = pr.lineCompute p1 (pr.addStep p1 p2).1 := by
  obtain ⟨x1, y1⟩ := p1
  obtain ⟨x2, y2⟩ := p2
  exact doubleAndAddStep_lines pr hpr x1 y1 x2 y2 hx3

/-- C27, over ℚ at p1 = (2, 3) and p2 = (0, 1), whose sum has abscissa -1. -/
theorem C27_doubleAndAddStep_lines_witness :
    IsFieldModel (fieldPairing ℚ) ∧ (2 : ℚ) ≠ 0 ∧
      ((fieldPairing ℚ).addStep ⟨2, 3⟩ ⟨0, 1⟩).1.X ≠ 2 ∧
      (((fieldPairing ℚ).doubleAndAddStep ⟨2, 3⟩ ⟨0, 1⟩).2.1
          = (fieldPairing ℚ).lineCompute ⟨2, 3⟩ ⟨0, 1⟩ ∧
        ((fieldPairing ℚ).doubleAndAddStep ⟨2, 3⟩ ⟨0, 1⟩).2.2
          = (fieldPairing ℚ).lineCompute ⟨2, 3⟩
              ((fieldPairing ℚ).addStep ⟨2, 3⟩ ⟨0, 1⟩).1) :=
  ⟨fieldPairing_isFieldModel ℚ, by norm_num, by rw [addStep_example_X]; norm_num,
    C27_doubleAndAddStep_lines (fieldPairing ℚ) (fieldPairing_isFieldModel ℚ) ⟨2, 3⟩ ⟨0, 1⟩
      (by norm_num) (by rw [addStep_example_X]; norm_num)⟩

/-- C28. Over a field with 2 ≠ 0, for every point P = (x, y) with y ≠ 0, with
((xr, yr), (R0, R1)) = `doubleStep(P)`, the equation Y + R0·X + R1 = 0 holds at
(x, y) and at (xr, -yr), and the slope λ = -R0 of the line is the slope of the
tangent at P to a curve y² = x³ + b: 2y·λ = 3x². -/
theorem C28_doubleStep_line_is_tangent {K G : Type} [Field K] (pr : Pairing K G)
    (hpr : IsFieldModel pr) (h2 : (2 : K) ≠ 0) (x y : K) (hy : y ≠ 0) :
    y + (pr.doubleStep ⟨x, y⟩).2.R0 * x + (pr.doubleStep ⟨x, y⟩).2.R1 = 0 ∧
      -(pr.doubleStep ⟨x, y⟩).1.Y
          + (pr.doubleStep ⟨x, y⟩).2.R0 * (pr.doubleStep ⟨x, y⟩).1.X
          + (pr.doubleStep ⟨x, y⟩).2.R1 = 0 ∧
      2 * y * -(pr.doubleStep ⟨x, y⟩).2.R0 = 3 * x ^ 2 :=
  doubleStep_line pr hpr h2 x y hy

/-- C28, over ℚ at the point (2, 3). -/
theorem C28_doubleStep_line_is_tangent_witness :
    IsFieldModel (fieldPairing ℚ) ∧ (2 : ℚ) ≠ 0 ∧ (3 : ℚ) ≠ 0 ∧
      (3 : ℚ) + ((fieldPairing ℚ).doubleStep ⟨2, 3⟩).2.R0 * 2
        + ((fieldPairing ℚ).doubleStep ⟨2, 3⟩).2.R1 = 0 :=
  ⟨fieldPairing_isFieldModel ℚ, by norm_num, by norm_num,
    (C28_doubleStep_line_is_tangent (fieldPairing ℚ) (fieldPairing_isFieldModel ℚ)
      (by norm_num) 2 3 (by norm_num)).1⟩

set_option maxRecDepth 100000 in
/-- C29. The digit each sub-loop skips is the leading 1: `loopCounter1[63] = 1`
and `loopCounter2[189] = 1`; the scalar tracked by the loop (1 at the start,
n ↦ 2n + d for each digit d from index 62, resp. 188, down to 0) ends at x₀ + 1
for `firstLoop` and at x₀³ - x₀² - x₀ for `secondLoop`. -/
theorem C29_skipped_digit_and_tracked_scalar :
    loopCounter1[63]? = some 1 ∧ loopCounter2[189]? = some 1 ∧
      trackedScalar (scannedDigits loopCounter1 63) = (x0 : Int) + 1 ∧
      trackedScalar (scannedDigits loopCounter2 189)
        = (x0 : Int) ^ 3 - (x0 : Int) ^ 2 - (x0 : Int) := by
  decide

/-- C30, the code when the base field is constructed. Whatever field `ba`
`NewField` returns, the Pairing `NewPairing` returns has `Ext6` built from `ba`
but `curveF` left at the zero value of its type: `curveF` is not `ba`, and it is
the same for any two fields `NewField` could return. -/
theorem C30_NewPairing_leaves_curveF_unset {A E F G : Type} (errorText : E → String)
    (newExt6 : CurveF F → Ext6 F G) (zeroField ba ba2 : CurveF F) (api : A) :
    NewPairing (fun _ => Except.ok ba) errorText newExt6 zeroField api
        = (some { Ext6 := newExt6 ba, curveF := zeroField }, none) ∧
      (NewPairing (fun _ => Except.ok ba) errorText newExt6 zeroField api).1.map
          (fun pr => pr.curveF)
        = (NewPairing (fun _ => Except.ok ba2) errorText newExt6 zeroField api).1.map
          (fun pr => pr.curveF) :=
  ⟨rfl, rfl⟩

/-! ## Bit reversal -/

/-- The reversal of k bits is below 2^k. -/
theorem reverseBits_lt (k : Nat) : ∀ x, reverseBits k x < 2 ^ k := by
  induction k with
  | zero => intro x; simp [reverseBits]
  | succ k ih =>
    intro x
    have h1 := ih (x / 2)
    have h2 : x % 2 < 2 := Nat.mod_lt _ (by decide)
    have h3 : x % 2 * 2 ^ k ≤ 1 * 2 ^ k := Nat.mul_le_mul_right _ (by omega)
    simp only [reverseBits, pow_succ]
    omega

/-- Reversing t + m bits: the t low bits land above the m bits that follow
them. -/
theorem reverseBits_add (t m : Nat) :
    ∀ x, reverseBits (t + m) x = reverseBits t x * 2 ^ m + reverseBits m (x / 2 ^ t) := by
  induction t with
  | zero => intro x; simp [reverseBits]
  | succ t ih =>
    intro x
    have h : t + 1 + m = (t + m) + 1 := by omega
    rw [h]
    simp only [reverseBits]
    rw [ih (x / 2), Nat.div_div_eq_div_mul, ← pow_succ', pow_add]
    ring

/-- The t high bits of the reversal of t + m bits are the reversal of the t low
bits. -/
theorem reverseBits_add_div (t m x : Nat) :
    reverseBits (t + m) x / 2 ^ m = reverseBits t x := by
  rw [reverseBits_add, Nat.add_comm, Nat.add_mul_div_right _ _ (by positivity),
    Nat.div_eq_of_lt (reverseBits_lt m _), Nat.zero_add]

/-- Reversing k + 1 bits, peeling the top bit. -/
theorem reverseBits_succ_top (k : Nat) :
    ∀ x, x < 2 ^ (k + 1) →
      reverseBits (k + 1) x = reverseBits k (x % 2 ^ k) * 2 + x / 2 ^ k := by
  induction k with
  | zero =>
    intro x hx
    simp only [reverseBits, pow_zero, Nat.div_one]
    omega
  | succ k ih =>
    intro x hx
    have hx2 : x / 2 < 2 ^ (k + 1) := by
      rw [Nat.div_lt_iff_lt_mul (by decide), ← pow_succ]; exact hx
    have e1 : x % 2 ^ (k + 1) % 2 = x % 2 := by
      rw [pow_succ']
      exact Nat.mod_mul_right_mod x 2 (2 ^ k)
    have e2 : x % 2 ^ (k + 1) / 2 = x / 2 % 2 ^ k := by
      rw [pow_succ']
      exact Nat.mod_mul_right_div_self x 2 (2 ^ k)
    have e3 : x / 2 / 2 ^ k = x / 2 ^ (k + 1) := by
      rw [Nat.div_div_eq_div_mul, ← pow_succ']
    rw [reverseBits, ih (x / 2) hx2, reverseBits, e1, e2, e3]
    ring

/-- Reversing k bits twice gives back a number below 2^k. -/
theorem reverseBits_reverseBits (k : Nat) :
    ∀ x, x < 2 ^ k → reverseBits k (reverseBits k x) = x := by
  induction k with
  | zero =>
    intro x hx
    simp only [pow_zero, Nat.lt_one_iff] at hx
    simp [reverseBits, hx]
  | succ k ih =>
    intro x hx
    have hx2 : x / 2 < 2 ^ k := by
      rw [Nat.div_lt_iff_lt_mul (by decide), ← pow_succ]; exact hx
    have hr := reverseBits_lt k (x / 2)
    have hb : x % 2 < 2 := Nat.mod_lt _ (by decide)
    rw [reverseBits_succ_top k _ (reverseBits_lt (k + 1) x)]
    simp only [reverseBits]
    have e1 : (x % 2 * 2 ^ k + reverseBits k (x / 2)) % 2 ^ k = reverseBits k (x / 2) := by
      rw [Nat.add_comm, Nat.add_mul_mod_self_right, Nat.mod_eq_of_lt hr]
    have e2 : (x % 2 * 2 ^ k + reverseBits k (x / 2)) / 2 ^ k = x % 2 := by
      rw [Nat.add_comm, Nat.add_mul_div_right _ _ (by positivity), Nat.div_eq_of_lt hr,
        Nat.zero_add]
    rw [e1, e2, ih (x / 2) hx2]
    omega

/-- The trailing zeros counted on `fuel` bits are at most `fuel`. -/
theorem trailingZerosAux_le (fuel : Nat) : ∀ x, trailingZerosAux fuel x ≤ fuel := by
  induction fuel with
  | zero => intro x; simp [trailingZerosAux]
  | succ f ih =>
    intro x
    simp only [trailingZerosAux]
    split
    · omega
    · have := ih (x / 2); omega

/-- Two to the number of trailing zeros divides the number. -/
theorem two_pow_trailingZerosAux_dvd (fuel : Nat) :
    ∀ x, 2 ^ trailingZerosAux fuel x ∣ x := by
  induction fuel with
  | zero => intro x; simp [trailingZerosAux]
  | succ f ih =>
    intro x
    simp only [trailingZerosAux]
    split
    · simp
    · rename_i h
      have hx : x % 2 = 0 := by omega
      have hd := Nat.mul_dvd_mul (ih (x / 2)) (dvd_refl 2)
      have e : x / 2 * 2 = x := by omega
      rw [e] at hd
      rw [pow_succ]
      exact hd

/-- The trailing zeros of 2^k, counted on more than k bits, are k. -/
theorem trailingZerosAux_two_pow (fuel : Nat) :
    ∀ k, k < fuel → trailingZerosAux fuel (2 ^ k) = k := by
  induction fuel with
  | zero => intro k hk; omega
  | succ f ih =>
    intro k hk
    cases k with
    | zero => simp [trailingZerosAux]
    | succ k =>
      have h1 : 2 ^ (k + 1) % 2 = 0 := by rw [pow_succ]; omega
      have h2 : 2 ^ (k + 1) / 2 = 2 ^ k := by rw [pow_succ]; omega
      simp only [trailingZerosAux, h1, h2]
      rw [ih k (by omega)]
      simp

/-- `TrailingZeros64` of a length below 2^64 is at most 64 and two to it divides
the length. -/
theorem TrailingZeros64_spec (n : Nat) (hn : n < 2 ^ 64) :
    TrailingZeros64 n ≤ 64 ∧ (0 < n → 2 ^ TrailingZeros64 n ∣ n) := by
  unfold TrailingZeros64
  rw [Nat.mod_eq_of_lt hn]
  split
  · rename_i h
    exact ⟨le_refl _, fun h0 => absurd h (by omega)⟩
  · exact ⟨trailingZerosAux_le 64 n, fun _ => two_pow_trailingZerosAux_dvd 64 n⟩

/-- `TrailingZeros64` of 2^k is k for k < 64. -/
theorem TrailingZeros64_two_pow (k : Nat) (hk : k < 64) : TrailingZeros64 (2 ^ k) = k := by
  have hlt : 2 ^ k < 2 ^ 64 := Nat.pow_lt_pow_right (by decide) hk
  have hpos : 0 < 2 ^ k := by positivity
  unfold TrailingZeros64
  rw [Nat.mod_eq_of_lt hlt, if_neg (by omega)]
  exact trailingZerosAux_two_pow 64 k hk

/-- The index `bits.Reverse64(i) >> (64 - t)` is the reversal of the t low bits
of i, for t ≤ 64 and i below 2^64. -/
theorem Reverse64_shift (t i : Nat) (ht : t ≤ 64) (hi : i < 2 ^ 64) :
    Reverse64 i / 2 ^ (64 - t) = reverseBits t i := by
  unfold Reverse64
  rw [Nat.mod_eq_of_lt hi]
  have h := reverseBits_add_div t (64 - t) i
  rw [Nat.add_sub_cancel' ht] at h
  exact h

/-- A list read through an involution of its indices is a permutation of the
list. -/
theorem perm_of_index_involution {T : Type} (a b : List T) (σ : Nat → Nat)
    (hb : b.length = a.length) (hlt : ∀ j, j < a.length → σ j < a.length)
    (hinv : ∀ j, j < a.length → σ (σ j) = j)
    (h : ∀ j, j < a.length → b[j]? = a[σ j]?) : b.Perm a := by
  let e : Equiv.Perm (Fin a.length) :=
    { toFun := fun i => ⟨σ i, hlt i i.2⟩
      invFun := fun i => ⟨σ i, hlt i i.2⟩
      left_inv := fun i => Fin.ext (hinv i i.2)
      right_inv := fun i => Fin.ext (hinv i i.2) }
  have h1 : b = List.ofFn (a.get ∘ e) := by
    apply List.ext_getElem?
    intro j
    by_cases hj : j < a.length
    · rw [h j hj, List.getElem?_ofFn]
      simp only [List.ofFnNthVal, dif_pos hj]
      rw [List.getElem?_eq_getElem (hlt j hj)]
      rfl
    · rw [List.getElem?_eq_none (by omega), List.getElem?_eq_none (by simp; omega)]
  have h2 : a = List.ofFn a.get := (List.ofFn_get a).symm
  rw [h1]
  conv_rhs => rw [h2]
  exact Equiv.Perm.ofFn_comp_perm e a.get

/-- When every index the loop computes is inside the slice, the loop of
`bitReverse` ends without a panic and keeps the length. -/
theorem bitReverseLoop_some {T : Type} (nn n : Nat)
    (hirev : ∀ j, j < n → Reverse64 j / 2 ^ nn < n) :
    ∀ (k i : Nat) (a : List T), i + k = n → a.length = n →
      ∃ b, bitReverseLoop nn k i a = some b ∧ b.length = n := by
  intro k
  induction k with
  | zero => intro i a _ ha; exact ⟨a, rfl, ha⟩
  | succ k ih =>
    intro i a hik ha
    have hi : i < n := by omega
    have hr := hirev i hi
    unfold bitReverseLoop
    simp only
    split
    · rw [List.getElem?_eq_getElem (by omega : i < a.length),
        List.getElem?_eq_getElem (by omega : Reverse64 i / 2 ^ nn < a.length)]
      exact ih (i + 1) _ (by omega) (by simp [ha])
    · exact ih (i + 1) a (by omega) ha

/-- The loop of `bitReverse`, when the index it computes is an involution σ of
the indices: started on the original slice it leaves at each index j the element
that was at index σ j. -/
theorem bitReverseLoop_spec {T : Type} (nn : Nat) (a0 : List T) (σ : Nat → Nat)
    (hlt : ∀ j, j < a0.length → σ j < a0.length)
    (hinv : ∀ j, j < a0.length → σ (σ j) = j)
    (hirev : ∀ j, j < a0.length → Reverse64 j / 2 ^ nn = σ j) :
    ∀ (k m : Nat) (cur : List T), m + k = a0.length → cur.length = a0.length →
      (∀ j, j < a0.length →
        cur[j]? = if j < m ∨ σ j < m then a0[σ j]? else a0[j]?) →
      ∃ b, bitReverseLoop nn k m cur = some b ∧ b.length = a0.length ∧
        ∀ j, j < a0.length → b[j]? = a0[σ j]? := by
  intro k
  induction k with
  | zero =>
    intro m cur hm hlen hinvar
    refine ⟨cur, rfl, hlen, ?_⟩
    intro j hj
    rw [hinvar j hj, if_pos (Or.inl (by omega))]
  | succ k ih =>
    intro m cur hmk hlen hinvar
    have hm : m < a0.length := by omega
    have hσm := hlt m hm
    unfold bitReverseLoop
    simp only [hirev m hm]
    by_cases hgt : σ m > m
    · rw [if_pos hgt, List.getElem?_eq_getElem (by omega : m < cur.length),
        List.getElem?_eq_getElem (by omega : σ m < cur.length)]
      simp only
      apply ih (m + 1) _ (by omega) (by simp [hlen])
      intro j hj
      have hcm : cur[m]? = a0[m]? := by
        rw [hinvar m hm, if_neg (by omega)]
      have hcs : cur[σ m]? = a0[σ m]? := by
        rw [hinvar (σ m) hσm, hinv m hm, if_neg (by omega)]
      by_cases hjs : j = σ m
      · subst hjs
        rw [List.getElem?_set_self (by simp; omega), if_pos (Or.inr (by rw [hinv m hm]; omega)),
          hinv m hm, ← hcm, List.getElem?_eq_getElem (by omega : m < cur.length)]
      · rw [List.getElem?_set_ne (Ne.symm hjs)]
        by_cases hjm : j = m
        · subst hjm
          rw [List.getElem?_set_self (by omega), if_pos (Or.inl (by omega)), ← hcs,
            List.getElem?_eq_getElem (by omega : σ j < cur.length)]
        · rw [List.getElem?_set_ne (Ne.symm hjm), hinvar j hj]
          have hne : σ j ≠ m := by
            intro h
            apply hjs
            rw [← h, hinv j hj]
          by_cases hc : j < m ∨ σ j < m
          · rw [if_pos hc, if_pos (by omega)]
          · rw [if_neg hc, if_neg (by omega)]
    · rw [if_neg hgt]
      apply ih (m + 1) cur (by omega) hlen
      intro j hj
      rw [hinvar j hj]
      by_cases hc : j < m ∨ σ j < m
      · rw [if_pos hc, if_pos (by omega)]
      · by_cases hc2 : j < m + 1 ∨ σ j < m + 1
        · rw [if_neg hc, if_pos hc2]
          have hjm : j = m := by
            rcases hc2 with h | h
            · omega
            · have h1 : σ j = m := by omega
              have h2 : j = σ m := by rw [← h1, hinv j hj]
              omega
          subst hjm
          have : σ j = j := by omega
          rw [this]
        · rw [if_neg hc, if_neg hc2]

/-- On a slice of length 2^k, k < 64, `bitReverse` leaves at each index i the
element that was at the index with the k low bits of i reversed; the result is a
permutation of the slice and a second application restores it. -/
theorem bitReverse_two_pow {T : Type} (a : List T) (k : Nat) (hk : k < 64)
    (hlen : a.length = 2 ^ k) :
    ∃ b, bitReverse a = some b ∧ b.length = a.length ∧
      (∀ i, i < a.length → b[i]? = a[reverseBits k i]?) ∧ b.Perm a ∧
      bitReverse b = some a := by
  have hlt64 : (2 : Nat) ^ k < 2 ^ 64 := Nat.pow_lt_pow_right (by decide) hk
  have key : ∀ l : List T, l.length = 2 ^ k →
      ∃ b, bitReverse l = some b ∧ b.length = l.length ∧
        ∀ i, i < l.length → b[i]? = l[reverseBits k i]? := by
    intro l hc
    unfold bitReverse
    simp only [hc, TrailingZeros64_two_pow k hk]
    rw [← hc]
    apply bitReverseLoop_spec (64 - k) l (reverseBits k)
    · intro j _; rw [hc]; exact reverseBits_lt k j
    · intro j hj; exact reverseBits_reverseBits k j (by omega)
    · intro j hj; exact Reverse64_shift k j (by omega) (by omega)
    · omega
    · rfl
    · intro j hj
      rw [if_neg (by omega)]
  obtain ⟨b, hb, hbl, hbi⟩ := key a hlen
  obtain ⟨b2, hb2, hb2l, hb2i⟩ := key b (by omega)
  refine ⟨b, hb, hbl, hbi, ?_, ?_⟩
  · apply perm_of_index_involution a b (reverseBits k) hbl
    · intro j _; rw [hlen]; exact reverseBits_lt k j
    · intro j hj; exact reverseBits_reverseBits k j (by omega)
    · exact hbi
  · rw [hb2]
    congr 1
    apply List.ext_getElem?
    intro j
    by_cases hj : j < a.length
    · have hr : reverseBits k j < a.length := by rw [hlen]; exact reverseBits_lt k j
      rw [hb2i j (by omega), hbi _ hr, reverseBits_reverseBits k j (by omega)]
    · rw [List.getElem?_eq_none (by omega), List.getElem?_eq_none (by omega)]

/-- On a slice of any length `bitReverse` ends without a panic and keeps the
length: the index it computes is below 2^t for the number t of trailing zeros of
the length, and 2^t divides the length. -/
theorem bitReverse_some {T : Type} (a : List T) (hlen : a.length < 2 ^ 64) :
    ∃ b, bitReverse a = some b ∧ b.length = a.length := by
  obtain ⟨ht, hdvd⟩ := TrailingZeros64_spec a.length hlen
  unfold bitReverse
  apply bitReverseLoop_some (64 - TrailingZeros64 a.length) a.length
  · intro j hj
    rw [Reverse64_shift _ j ht (by omega)]
    have h1 := reverseBits_lt (TrailingZeros64 a.length) j
    have h2 := Nat.le_of_dvd (by omega) (hdvd (by omega))
    omega
  · omega
  · rfl

/-! ## The claims on the order of the output and on bit reversal -/

/-- C31. In the power model, for every z killed by p⁶ - 1 (every non-zero
element of F_{p⁶}), `FinalExponentiation(z)^r = 1`; and the exponent the easy
part and the hard-part chain compute, taken modulo p⁶ - 1 on the generator of
the discrete-logarithm model, multiplied by r is divisible by p⁶ - 1. -/
theorem C31_output_in_order_r_subgroup {F K : Type} [Field K] (pr : Pairing F K)
    (hpr : IsPowerModel pr) (z : K) (hord : z ^ (bw6_p ^ 6 - 1) = 1) :
    (pr.FinalExponentiation z []) ^ bw6_r = 1 ∧
      (dlogPairing.FinalExponentiation 1 [] * bw6_r) % (bw6_p ^ 6 - 1) = 0 :=
  ⟨FinalExponentiation_pow_r pr hpr z hord, by decide⟩

/-- C31, at the power-map capability on ℚ and z = -1. -/
theorem C31_output_in_order_r_subgroup_witness :
    IsPowerModel (powPairing ℚ) ∧ (-1 : ℚ) ^ (bw6_p ^ 6 - 1) = 1 ∧
      ((powPairing ℚ).FinalExponentiation (-1) []) ^ bw6_r = 1 :=
  ⟨powPairing_isPowerModel ℚ, neg_one_pow_gtOrder,
    (C31_output_in_order_r_subgroup (powPairing ℚ) (powPairing_isPowerModel ℚ) (-1)
      neg_one_pow_gtOrder).1⟩

/-- C32. For every slice a (its length is below 2^64): `bitReverse(a)` never
indexes outside the slice, whatever the length (0 included), and when the length
is a power of two, n = 2^k, it leaves at each index i the element that was at the
index obtained by reversing the k low bits of i, so the result is a permutation
of a and applying `bitReverse` twice restores a. -/
theorem C32_bitReverse {T : Type} (a : List T) (hlen : a.length < 2 ^ 64) :
    (∃ b, bitReverse a = some b ∧ b.length = a.length) ∧
      ∀ k, a.length = 2 ^ k →
        ∃ b, bitReverse a = some b ∧
          (∀ i, i < a.length → b[i]? = a[reverseBits k i]?) ∧ b.Perm a ∧
          bitReverse b = some a := by
  refine ⟨bitReverse_some a hlen, ?_⟩
  intro k hk
  have hk64 : k < 64 := by
    rw [hk] at hlen
    exact (Nat.pow_lt_pow_iff_right (by decide)).mp hlen
  obtain ⟨b, h1, _, h3, h4, h5⟩ := bitReverse_two_pow a k hk64 hk
  exact ⟨b, h1, h3, h4, h5⟩

/-- C32, on the slice 0, 1, …, 7 (k = 3) and on a slice of length 3. -/
theorem C32_bitReverse_witness :
    ([0, 1, 2, 3, 4, 5, 6, 7] : List Nat).length < 2 ^ 64 ∧
      bitReverse ([0, 1, 2, 3, 4, 5, 6, 7] : List Nat) = some [0, 4, 2, 6, 1, 5, 3, 7] ∧
      (∃ b, bitReverse ([0, 1, 2, 3, 4, 5, 6, 7] : List Nat) = some b ∧
        (∀ i, i < 8 → b[i]? = ([0, 1, 2, 3, 4, 5, 6, 7] : List Nat)[reverseBits 3 i]?) ∧
        b.Perm [0, 1, 2, 3, 4, 5, 6, 7] ∧ bitReverse b = some [0, 1, 2, 3, 4, 5, 6, 7]) ∧
      ∃ b, bitReverse ([10, 11, 12] : List Nat) = some b ∧ b.length = 3 :=
  ⟨by decide, by decide,
    (C32_bitReverse ([0, 1, 2, 3, 4, 5, 6, 7] : List Nat) (by decide)).2 3 rfl,
    (C32_bitReverse ([10, 11, 12] : List Nat) (by decide)).1⟩

/-! ## The invalid-digit error in the Miller loop and the group law of the chord sum -/

/-- A sub-loop whose scanned indices all exist returns (it does not panic). -/
theorem loopFrom_returns {F G : Type} (pr : Pairing F G) (tbl : List Int) (Q : G2Affine F)
    (yInv xOverY : F) (n : Nat) (res : G) (Qacc : G2Affine F) (hn : n ≤ tbl.length) :
    ∃ v e, pr.loopFrom tbl Q ⟨Q.X, pr.curveF.Neg Q.Y⟩ yInv xOverY n res Qacc = .ret v e := by
  rw [loopFrom_eq_spec pr tbl Q yInv xOverY n res Qacc hn]
  cases (scannedDigits tbl n).foldl
      (fun state digit => state.bind (specIteration pr Q yInv xOverY digit))
      (some (res, Qacc)) with
  | none => exact ⟨none, some "invalid loopCounter", rfl⟩
  | some st => exact ⟨some st.1, none, rfl⟩

/-- When the second sub-loop returns a nil pointer and the first one returns,
`MillerLoopOn` stops in a panic. -/
theorem MillerLoopOn_of_second_invalid {F G : Type} (pr : Pairing F G) (tbl1 tbl2 : List Int)
    (P : G1Affine F) (Q : G2Affine F) (ml1 : Option G) (e1 e2 : Option String)
    (h1 : pr.firstLoopOn tbl1 P Q = .ret ml1 e1)
    (h2 : pr.secondLoopOn tbl2 P Q = .ret none e2) :
    pr.MillerLoopOn tbl1 tbl2 P Q = .panicked := by
  unfold Pairing.MillerLoopOn
  rw [h1, h2]

/-- When `MillerLoopOn` stops in a panic so does `PairOn`. -/
theorem PairOn_of_MillerLoopOn_panicked {F G : Type} (pr : Pairing F G) (tbl1 tbl2 : List Int)
    (P : G1Affine F) (Q : G2Affine F) (h : pr.MillerLoopOn tbl1 tbl2 P Q = .panicked) :
    pr.PairOn tbl1 tbl2 P Q = .panicked := by
  unfold Pairing.PairOn
  rw [h]

/-- With a digit outside {-1, 0, 1} at a scanned index of either table (of the
lengths of the Go arrays), the sub-loop that reads it returns a nil pointer and
the invalid-digit error, and `MillerLoopOn` stops in a panic. -/
theorem MillerLoopOn_of_invalidDigit {F G : Type} (pr : Pairing F G) (tbl1 tbl2 : List Int)
    (P : G1Affine F) (Q : G2Affine F) (h1 : tbl1.length = 64) (h2 : tbl2.length = 190)
    (hbad : (∃ i, i < 63 ∧ invalidDigit tbl1 i) ∨ (∃ i, i < 189 ∧ invalidDigit tbl2 i)) :
    ((∃ i, i < 63 ∧ invalidDigit tbl1 i) →
        pr.firstLoopOn tbl1 P Q = .ret none (some "invalid loopCounter")) ∧
      ((∃ i, i < 189 ∧ invalidDigit tbl2 i) →
        pr.secondLoopOn tbl2 P Q = .ret none (some "invalid loopCounter")) ∧
      pr.MillerLoopOn tbl1 tbl2 P Q = .panicked := by
  have hf : (∃ i, i < 63 ∧ invalidDigit tbl1 i) →
      pr.firstLoopOn tbl1 P Q = .ret none (some "invalid loopCounter") := by
    intro h
    unfold Pairing.firstLoopOn
    exact loopFrom_of_invalidDigit pr tbl1 _ _ _ _ 63 _ _ (by omega) h
  have hs : (∃ i, i < 189 ∧ invalidDigit tbl2 i) →
      pr.secondLoopOn tbl2 P Q = .ret none (some "invalid loopCounter") := by
    intro h
    unfold Pairing.secondLoopOn
    exact loopFrom_of_invalidDigit pr tbl2 _ _ _ _ 189 _ _ (by omega) h
  refine ⟨hf, hs, ?_⟩
  rcases hbad with h | h
  · exact MillerLoopOn_of_first_invalid pr tbl1 tbl2 P Q _ (hf h)
  · obtain ⟨v, e, hv⟩ : ∃ v e, pr.firstLoopOn tbl1 P Q = .ret v e := by
      unfold Pairing.firstLoopOn
      exact loopFrom_returns pr tbl1 Q _ _ 63 _ _ (by omega)
    exact MillerLoopOn_of_second_invalid pr tbl1 tbl2 P Q v e _ hv (hs h)

set_option maxRecDepth 100000 in
/-- The corrupted first table has the length of the Go array and a digit 2 at
the scanned index 0. -/
theorem corruptedLoopCounter1_invalid :
    corruptedLoopCounter1.length = 64 ∧ loopCounter2.length = 190 ∧
      ∃ i, i < 63 ∧ invalidDigit corruptedLoopCounter1 i :=
  ⟨by decide, by decide, 0, by decide, 2, by decide, by decide, by decide, by decide⟩

/-- C9, as stated, fails: with `loopCounter1[0]` replaced by 2, over ℚ at
P = Q = (2, 3), `firstLoop` returns a nil pointer and the error
"invalid loopCounter", and `MillerLoop` does not fail with that error: it
stops in a panic. -/
theorem C9_error_not_surfaced_counterexample :
    (fieldPairing ℚ).firstLoopOn corruptedLoopCounter1 ⟨2, 3⟩ ⟨2, 3⟩
        = .ret none (some "invalid loopCounter") ∧
      (fieldPairing ℚ).MillerLoopOn corruptedLoopCounter1 loopCounter2 ⟨2, 3⟩ ⟨2, 3⟩
        ≠ .ret none (some "invalid loopCounter") ∧
      (fieldPairing ℚ).MillerLoopOn corruptedLoopCounter1 loopCounter2 ⟨2, 3⟩ ⟨2, 3⟩
        = .panicked := by
  obtain ⟨hf, -, hm⟩ := MillerLoopOn_of_invalidDigit (fieldPairing ℚ) corruptedLoopCounter1
    loopCounter2 ⟨2, 3⟩ ⟨2, 3⟩ corruptedLoopCounter1_invalid.1 corruptedLoopCounter1_invalid.2.1
    (Or.inl corruptedLoopCounter1_invalid.2.2)
  refine ⟨hf corruptedLoopCounter1_invalid.2.2, ?_, hm⟩
  rw [hm]
  intro h
  cases h

/-- C9, amended. For every pair of digit tables (of the lengths of the Go
arrays) with an entry outside {-1, 0, 1} at a scanned index, the sub-loop that
reads it returns a nil pointer and the invalid-digit error, but `MillerLoop`
does not surface it: it discards the errors of both sub-loops, returns a non-nil
error on no input, and, handing the nil pointer to the extension capability,
stops in a run-time panic instead of returning a result; so does `Pair`. -/
theorem C9_invalid_digit_error_dropped {F G : Type} (pr : Pairing F G) (tbl1 tbl2 : List Int)
    (P : G1Affine F) (Q : G2Affine F) (h1 : tbl1.length = 64) (h2 : tbl2.length = 190)
    (hbad : (∃ i, i < 63 ∧ invalidDigit tbl1 i) ∨ (∃ i, i < 189 ∧ invalidDigit tbl2 i)) :
    ((∃ i, i < 63 ∧ invalidDigit tbl1 i) →
        pr.firstLoopOn tbl1 P Q = .ret none (some "invalid loopCounter")) ∧
      ((∃ i, i < 189 ∧ invalidDigit tbl2 i) →
        pr.secondLoopOn tbl2 P Q = .ret none (some "invalid loopCounter")) ∧
      pr.MillerLoopOn tbl1 tbl2 P Q = .panicked ∧
      pr.PairOn tbl1 tbl2 P Q = .panicked ∧
      ∀ (t1 t2 : List Int) (v : Option G) (e : Option String),
        pr.MillerLoopOn t1 t2 P Q = .ret v e → e = none := by
  obtain ⟨hf, hs, hm⟩ := MillerLoopOn_of_invalidDigit pr tbl1 tbl2 P Q h1 h2 hbad
  exact ⟨hf, hs, hm, PairOn_of_MillerLoopOn_panicked pr tbl1 tbl2 P Q hm,
    fun t1 t2 v e h => MillerLoopOn_err_nil pr t1 t2 P Q v e h⟩

/-- C9 amended, over ℚ at P = Q = (2, 3) with `loopCounter1[0]` replaced by
2. -/
theorem C9_invalid_digit_error_dropped_witness :
    corruptedLoopCounter1.length = 64 ∧ loopCounter2.length = 190 ∧
      ((∃ i, i < 63 ∧ invalidDigit corruptedLoopCounter1 i) ∨
        (∃ i, i < 189 ∧ invalidDigit loopCounter2 i)) ∧
      (fieldPairing ℚ).MillerLoopOn corruptedLoopCounter1 loopCounter2 ⟨2, 3⟩ ⟨2, 3⟩
        = .panicked ∧
      (fieldPairing ℚ).PairOn corruptedLoopCounter1 loopCounter2 ⟨2, 3⟩ ⟨2, 3⟩ = .panicked :=
  ⟨corruptedLoopCounter1_invalid.1, corruptedLoopCounter1_invalid.2.1,
    Or.inl corruptedLoopCounter1_invalid.2.2,
    (C9_invalid_digit_error_dropped (fieldPairing ℚ) corruptedLoopCounter1 loopCounter2 ⟨2, 3⟩
      ⟨2, 3⟩ corruptedLoopCounter1_invalid.1 corruptedLoopCounter1_invalid.2.1
      (Or.inl corruptedLoopCounter1_invalid.2.2)).2.2.1,
    (C9_invalid_digit_error_dropped (fieldPairing ℚ) corruptedLoopCounter1 loopCounter2 ⟨2, 3⟩
      ⟨2, 3⟩ corruptedLoopCounter1_invalid.1 corruptedLoopCounter1_invalid.2.1
      (Or.inl corruptedLoopCounter1_invalid.2.2)).2.2.2.1⟩

open WeierstrassCurve.Affine in
/-- When 2, 3 and b are not zero every point of y² = x³ + b is nonsingular. -/
theorem shortCurve_nonsingular_of_ne_zero {K : Type} [Field K] (h2 : (2 : K) ≠ 0)
    (h3 : (3 : K) ≠ 0) (b x y : K) (hb : b ≠ 0) (hon : y ^ 2 = x ^ 3 + b) :
    (shortCurve b).Nonsingular x y := by
  by_cases hy : y = 0
  · rw [nonsingular_iff, equation_iff]
    simp only [shortCurve]
    refine ⟨by rw [hon]; ring, Or.inl ?_⟩
    have hx : x ≠ 0 := by
      rintro rfl
      rw [hy] at hon
      apply hb
      linear_combination -hon
    intro h
    have : 3 * x ^ 2 = 0 := by linear_combination -h
    exact (mul_ne_zero h3 (pow_ne_zero 2 hx)) this
  · exact shortCurve_nonsingular h2 b x y hon hy

open WeierstrassCurve.Affine in
/-- A nonsingular point of y² = x³ + b satisfies the curve equation. -/
theorem shortCurve_equation {K : Type} [Field K] (b x y : K)
    (h : (shortCurve b).Nonsingular x y) : y ^ 2 = x ^ 3 + b := by
  have he := h.1
  rw [equation_iff] at he
  simp only [shortCurve] at he
  linear_combination he

open WeierstrassCurve.Affine in
/-- C14, as stated, fails: on y² = x³ (b = 0) over ℚ the points P = (0, 0) and
Q = (1, 1) are on the curve with different abscissas, but `addStep(P, Q)`
returns P itself although Q is an affine point, and P is the singular point of
the curve, which the chord-and-tangent group law does not contain. -/
theorem C14_group_law_counterexample :
    (0 : ℚ) ^ 2 = 0 ^ 3 + 0 ∧ (1 : ℚ) ^ 2 = 1 ^ 3 + 0 ∧ (0 : ℚ) ≠ 1 ∧
      ((fieldPairing ℚ).addStep ⟨0, 0⟩ ⟨1, 1⟩).1 = ⟨0, 0⟩ ∧
      ¬ (shortCurve (0 : ℚ)).Nonsingular 0 0 := by
  refine ⟨by norm_num, by norm_num, by norm_num, ?_, ?_⟩
  · rw [addStep_eq _ (fieldPairing_isFieldModel ℚ)]
    norm_num
  · rw [nonsingular_iff]
    simp [shortCurve]

open WeierstrassCurve.Affine in
/-- C14, amended. Over a field, for every b and all points P = (xP, yP),
Q = (xQ, yQ) on y² = x³ + b with xP ≠ xQ, the point `addStep(P, Q)` returns is
(xr, yr) with λ = (yQ - yP)/(xQ - xP), xr = λ² - xP - xQ, yr = λ(xP - xr) - yP,
and it satisfies yr² = xr³ + b; when P and Q are nonsingular points of the curve
it is P + Q in the group law of the Weierstrass curve y² = x³ + b. -/
theorem C14_addStep_adds {K G : Type} [Field K] [DecidableEq K] (pr : Pairing K G)
    (hpr : IsFieldModel pr) (b xP yP xQ yQ : K) (hP : yP ^ 2 = xP ^ 3 + b)
    (hQ : yQ ^ 2 = xQ ^ 3 + b) (hx : xP ≠ xQ) :
    (pr.addStep ⟨xP, yP⟩ ⟨xQ, yQ⟩).1
        = ⟨((yQ - yP) / (xQ - xP)) ^ 2 - xP - xQ,
            (yQ - yP) / (xQ - xP) * (xP - (((yQ - yP) / (xQ - xP)) ^ 2 - xP - xQ)) - yP⟩ ∧
      (pr.addStep ⟨xP, yP⟩ ⟨xQ, yQ⟩).1.Y ^ 2 = (pr.addStep ⟨xP, yP⟩ ⟨xQ, yQ⟩).1.X ^ 3 + b ∧
      ∀ (nP : (shortCurve b).Nonsingular xP yP) (nQ : (shortCurve b).Nonsingular xQ yQ),
        ∃ h : (shortCurve b).Nonsingular (pr.addStep ⟨xP, yP⟩ ⟨xQ, yQ⟩).1.X
            (pr.addStep ⟨xP, yP⟩ ⟨xQ, yQ⟩).1.Y,
          Point.some nP + Point.some nQ = Point.some h := by
  rw [addStep_eq pr hpr]
  exact ⟨rfl, add_on_curve b xP yP xQ yQ hP hQ hx,
    fun nP nQ => chord_eq_point_add b xP yP xQ yQ nP nQ hx⟩

open WeierstrassCurve.Affine in
/-- C14 amended, on the curve y² = x³ + 1 over ℚ at the nonsingular points
(2, 3) and (0, 1): the returned point is on the curve and is their sum in the
group law. -/
theorem C14_addStep_adds_witness :
    IsFieldModel (fieldPairing ℚ) ∧ (3 : ℚ) ^ 2 = 2 ^ 3 + 1 ∧ (1 : ℚ) ^ 2 = 0 ^ 3 + 1 ∧
      (2 : ℚ) ≠ 0 ∧
      ((fieldPairing ℚ).addStep ⟨2, 3⟩ ⟨0, 1⟩).1.Y ^ 2
        = ((fieldPairing ℚ).addStep ⟨2, 3⟩ ⟨0, 1⟩).1.X ^ 3 + 1 ∧
      ∃ h : (shortCurve (1 : ℚ)).Nonsingular ((fieldPairing ℚ).addStep ⟨2, 3⟩ ⟨0, 1⟩).1.X
          ((fieldPairing ℚ).addStep ⟨2, 3⟩ ⟨0, 1⟩).1.Y,
        Point.some (shortCurve_nonsingular (two_ne_zero) (1 : ℚ) 2 3 (by norm_num)
            (by norm_num))
          + Point.some (shortCurve_nonsingular (two_ne_zero) (1 : ℚ) 0 1 (by norm_num)
            (by norm_num))
          = Point.some h :=
  ⟨fieldPairing_isFieldModel ℚ, by norm_num, by norm_num, by norm_num,
    (C14_addStep_adds (fieldPairing ℚ) (fieldPairing_isFieldModel ℚ) 1 2 3 0 1 (by norm_num)
      (by norm_num) (by norm_num)).2.1,
    (C14_addStep_adds (fieldPairing ℚ) (fieldPairing_isFieldModel ℚ) 1 2 3 0 1 (by norm_num)
      (by norm_num) (by norm_num)).2.2 _ _⟩

end SwBw6761
